import Mathlib

/-!
# Verification of `route_planner.py`

A shallow embedding of the SITP/TransMilenio route planner and proofs about it.

Modelling conventions:
* Python `int` travel times and costs become `ℤ`; the transfer penalty is `ℤ`.
* Python dicts become association lists (`List (key × value)`), with lookup
  `lookupA` and insertion-order-preserving update `setA`, matching CPython
  dict semantics (updates keep the key position, new keys append at the end).
* `collections.defaultdict` read access, which inserts a default entry on a
  missing key, is modelled twice: a pure value-level lookup (`getD []`) used
  inside the search, and an explicit state-passing variant (`neighborsD`,
  `is_interchangeD`) that returns the possibly-extended table, used to study
  the mutation itself.  The two agree on every lookup (proved below), so the
  pure form is observationally faithful for the search results.
* The float haversine heuristic of the source uses transcendental functions
  on IEEE floats, which have no exact executable counterpart here.  The
  geodesic function is therefore a parameter `hav : ℚ × ℚ → ℚ × ℚ → ℚ` of
  `a_star`; the source instantiates it with the haversine distance.  Theorems
  either hold for every `hav`, or instantiate `hav` at values the real
  haversine provably attains at the chosen concrete coordinates (identical
  coordinates give exactly 0; 90 degrees of latitude give 6371 * pi / 2 km,
  which lies strictly between 10006 and 10009).
* Python's `heapq` is modelled as an unordered list with extraction of the
  leftmost entry of minimal priority (`popMin`).  None of the proved
  statements depends on the tie order, and no concrete run below has ties.
* Raised exceptions become `Except AErr`; `float('inf')` as the "no path"
  cost is folded into the `Option` of the result (`Except.ok none` is the
  `(None, inf)` return).  A run that would not terminate is `none` at the
  outer `Option` (the fuel of the loop ran out); the termination theorem
  shows the chosen fuel always suffices.
* The `used_line` dictionary of the source is written but never read, so it
  is not carried in the search state.
-/

/-- A search state of the planner: (station, line used to arrive), with
`none` for the start state.  Mirrors the `(estación, línea_anterior)` tuples. -/
abbrev SState := String × Option String

/-- The dataset consumed by the planner: `stations` maps a stop id to
(lat, lon), `links` is a list of (a, b, line, time), and the transfer
penalty constant.  Mirrors the `DATA` dictionary shape. -/
structure RPData where
  stations : List (String × ℚ × ℚ)
  links : List (String × String × String × ℤ)
  transfer_penalty : ℤ
deriving DecidableEq, Repr

/-- Association-list lookup, modelling Python `dict.__getitem__` success and
`dict.get` presence. -/
def lookupA {α β : Type} [DecidableEq α] : List (α × β) → α → Option β
  | [], _ => none
  | (k, v) :: rest, a => if k = a then some v else lookupA rest a

/-- Association-list update, modelling Python `dict.__setitem__`: an existing
key keeps its position and gets the new value, a new key is appended. -/
def setA {α β : Type} [DecidableEq α] : List (α × β) → α → β → List (α × β)
  | [], a, b => [(a, b)]
  | (k, v) :: rest, a, b => if k = a then (k, b) :: rest else (k, v) :: setA rest a b

/-- The knowledge base: the dataset plus the derived adjacency table
(`graph`: station to list of (neighbor, line, time)) and the lines serving
each station (`lines_by_station`). -/
structure KnowledgeBase where
  data : RPData
  graph : List (String × List (String × String × ℤ))
  lines_by_station : List (String × List String)
deriving DecidableEq, Repr

/-- One `self.graph[a].append((b, line, t))` on the adjacency table:
defaultdict access creates the entry, append extends it. -/
def addEdge (g : List (String × List (String × String × ℤ))) (a : String)
    (e : String × String × ℤ) : List (String × List (String × String × ℤ)) :=
  setA g a (((lookupA g a).getD []) ++ [e])

/-- The first `__init__` loop: both directions of every link are inserted,
in link order.  (`asumimos bidireccional`.) -/
def buildGraph (links : List (String × String × String × ℤ)) :
    List (String × List (String × String × ℤ)) :=
  links.foldl (fun g l => addEdge (addEdge g l.1 (l.2.1, l.2.2.1, l.2.2.2))
    l.2.1 (l.1, l.2.2.1, l.2.2.2)) []

/-- One `self.lines_by_station[a].add(line)`: Python `set.add`, modelled as
append-if-absent (only the cardinality of the set is ever observed). -/
def addLine (m : List (String × List String)) (s line : String) :
    List (String × List String) :=
  setA m s (let cur := (lookupA m s).getD []
            if line ∈ cur then cur else cur ++ [line])

/-- The second `__init__` loop building `lines_by_station`. -/
def buildLines (links : List (String × String × String × ℤ)) :
    List (String × List String) :=
  links.foldl (fun m l => addLine (addLine m l.1 l.2.2.1) l.2.1 l.2.2.1) []

/-- `KnowledgeBase.__init__`: note that it performs no validation at all;
it is a total function of the dataset. -/
def kbOfData (d : RPData) : KnowledgeBase :=
  { data := d, graph := buildGraph d.links, lines_by_station := buildLines d.links }

/-- R1, value level: `self.graph[station]` as a pure lookup with the
defaultdict default `[]`. -/
def KnowledgeBase.neighbors (kb : KnowledgeBase) (station : String) :
    List (String × String × ℤ) :=
  (lookupA kb.graph station).getD []

/-- R1, state level: `self.graph[station]` with the defaultdict side effect
made explicit: a missing key is appended with the default `[]`. -/
def KnowledgeBase.neighborsD (kb : KnowledgeBase) (station : String) :
    List (String × String × ℤ) × KnowledgeBase :=
  match lookupA kb.graph station with
  | some v => (v, kb)
  | none => ([], { kb with graph := kb.graph ++ [(station, [])] })

/-- R2: a transfer happens iff a previous line exists and differs from the
next line. -/
def KnowledgeBase.is_transfer (kb : KnowledgeBase) (prev_line : Option String)
    (next_line : String) : Bool :=
  match prev_line with
  | none => false
  | some p => decide (next_line ≠ p)

/-- R3: base time plus the transfer penalty when a transfer occurs. -/
def KnowledgeBase.step_cost (kb : KnowledgeBase) (base_time : ℤ) (tr : Bool) : ℤ :=
  base_time + (if tr then kb.data.transfer_penalty else 0)

/-- R4, value level: a station is an interchange iff more than one line
serves it. -/
def KnowledgeBase.is_interchange (kb : KnowledgeBase) (station : String) : Bool :=
  decide (((lookupA kb.lines_by_station station).getD []).length > 1)

/-- R4, state level, with the defaultdict side effect explicit. -/
def KnowledgeBase.is_interchangeD (kb : KnowledgeBase) (station : String) :
    Bool × KnowledgeBase :=
  match lookupA kb.lines_by_station station with
  | some v => (decide (v.length > 1), kb)
  | none => (false, { kb with lines_by_station := kb.lines_by_station ++ [(station, [])] })

/-- Errors the planner can raise: `KeyError` on a station id
(missing coordinates), `KeyError` on a search-state key of the cost or
parent dictionary, and the `ValueError("Criterio no soportado")`. -/
inductive AErr where
  | keyError (station : String)
  | keyErrorState (s : SState)
  | valueError
deriving DecidableEq, Repr

instance exceptDecEq {e a : Type} [DecidableEq e] [DecidableEq a] : DecidableEq (Except e a)
  | .error x, .error y =>
    if h : x = y then .isTrue (by rw [h]) else .isFalse (by intro c; cases c; exact h rfl)
  | .error _, .ok _ => .isFalse (by intro c; cases c)
  | .ok _, .error _ => .isFalse (by intro c; cases c)
  | .ok x, .ok y =>
    if h : x = y then .isTrue (by rw [h]) else .isFalse (by intro c; cases c; exact h rfl)

/-- `kb.coords(station)`: a plain dict access that raises `KeyError` when
the station has no coordinates entry. -/
def KnowledgeBase.coords (kb : KnowledgeBase) (station : String) :
    Except AErr (ℚ × ℚ) :=
  match lookupA kb.data.stations station with
  | some c => .ok c
  | none => .error (.keyError station)

/-- The heuristic closure `h` of `a_star`: geodesic distance (the abstracted
`hav`) from a station to the goal, times 2 (km to approximate minutes). -/
def hfun (hav : ℚ × ℚ → ℚ × ℚ → ℚ) (kb : KnowledgeBase) (goal s : String) :
    Except AErr ℚ := do
  let c1 ← kb.coords s
  let c2 ← kb.coords goal
  pure (hav c1 c2 * 2)

/-- The per-criterion step cost dispatch inside the `a_star` loop:
`tiempo` uses `step_cost`, `saltos` counts 1 plus 1 on a transfer,
`transbordos` counts the transfer alone; any other string is the
`ValueError` case (`none`). -/
def stepOf (kb : KnowledgeBase) (criterio : String) (last_line : Option String)
    (line : String) (base_t : ℤ) : Option ℤ :=
  let transfer := kb.is_transfer last_line line
  if criterio = "tiempo" then some (kb.step_cost base_t transfer)
  else if criterio = "saltos" then some (1 + (if transfer then 1 else 0))
  else if criterio = "transbordos" then some (if transfer then 1 else 0)
  else none

/-- The mutable search state of one `a_star` invocation: the frontier, the
best-known cost dictionary and the parent dictionary. -/
structure AState where
  openpq : List (ℚ × SState)
  g_cost : List (SState × ℤ)
  parents : List (SState × Option SState)
deriving DecidableEq, Repr

/-- `heapq.heappop`: extract an entry of minimal priority (leftmost among
equals in this model; no proved statement depends on the tie order). -/
def popMin : List (ℚ × SState) → Option ((ℚ × SState) × List (ℚ × SState))
  | [] => none
  | e :: rest =>
    match popMin rest with
    | none => some (e, [])
    | some (m, rest2) => if e.1 ≤ m.1 then some (e, rest) else some (m, e :: rest2)

/-- One relaxation of the inner `for v, line, base_t in kb.neighbors(u)`
body: compute the transfer flag and step cost, read `g_cost[u]`, and on a
strict improvement update cost and parent and push with priority
`tentative + h(v)` (the heuristic only under `tiempo`, evaluated only
inside the improvement branch, exactly as in the source). -/
def relaxOne (hav : ℚ × ℚ → ℚ × ℚ → ℚ) (kb : KnowledgeBase) (goal criterio : String)
    (u : SState) (e : String × String × ℤ) (st : AState) : Except AErr AState :=
  match stepOf kb criterio u.2 e.2.1 e.2.2 with
  | none => .error .valueError
  | some step =>
    match lookupA st.g_cost u with
    | none => .error (.keyErrorState u)
    | some gu =>
      let new_state : SState := (e.1, some e.2.1)
      let tentative : ℤ := gu + step
      let better : Bool :=
        match lookupA st.g_cost new_state with
        | none => true
        | some gv => decide (tentative < gv)
      if better then do
        let pr ← (if criterio = "tiempo" then hfun hav kb goal e.1 else pure 0)
        pure { openpq := st.openpq ++ [((tentative : ℚ) + pr, new_state)],
               g_cost := setA st.g_cost new_state tentative,
               parents := setA st.parents new_state (some u) }
      else pure st

/-- The whole neighbor loop of one popped state, left to right; an exception
aborts the loop as in Python. -/
def relaxList (hav : ℚ × ℚ → ℚ × ℚ → ℚ) (kb : KnowledgeBase) (goal criterio : String)
    (u : SState) : List (String × String × ℤ) → AState → Except AErr AState
  | [], st => .ok st
  | e :: rest, st => do
    relaxList hav kb goal criterio u rest (← relaxOne hav kb goal criterio u e st)

/-- The path reconstruction `while cur is not None` walk over `parents`.
The outer `Option` is the fuel (a cyclic parent table would make the source
loop forever); a missing key is the `KeyError` of `parents[cur]`. -/
def parChain (parents : List (SState × Option SState)) :
    ℕ → SState → Option (Except AErr (List SState))
  | 0, _ => none
  | f + 1, cur =>
    match lookupA parents cur with
    | none => some (.error (.keyErrorState cur))
    | some none => some (.ok [cur])
    | some (some p) =>
      match parChain parents f p with
      | none => none
      | some (.error e) => some (.error e)
      | some (.ok L) => some (.ok (cur :: L))

/-- The main `while openpq` loop: pop a minimal entry, return the
reconstructed path and its `g_cost` when the popped station is the goal,
otherwise relax all neighbors and continue.  Outer `none` = out of fuel. -/
def astarLoop (hav : ℚ × ℚ → ℚ × ℚ → ℚ) (kb : KnowledgeBase) (goal criterio : String) :
    ℕ → AState → Option (Except AErr (Option (List SState × ℤ)))
  | 0, _ => none
  | fuel + 1, st =>
    match popMin st.openpq with
    | none => some (.ok none)
    | some ((_, u), pq2) =>
      if u.1 = goal then
        match lookupA st.g_cost u with
        | none => some (.error (.keyErrorState u))
        | some gu =>
          match parChain st.parents (st.parents.length + 1) u with
          | none => none
          | some (.error e) => some (.error e)
          | some (.ok L) => some (.ok (some (L.reverse, gu)))
      else
        match relaxList hav kb goal criterio u (kb.neighbors u.1)
            { st with openpq := pq2 } with
        | .error e => some (.error e)
        | .ok st2 => astarLoop hav kb goal criterio fuel st2

/-- The initial dictionaries of `a_star`: only the start state, with cost 0
and no parent. -/
def initState (start : String) : AState :=
  { openpq := [(0, (start, none))],
    g_cost := [((start, none), 0)],
    parents := [((start, none), none)] }

/-- Every search state the loop can ever mention: the start state and, for
each link, both endpoint states tagged with the link's line. -/
def allStates (kb : KnowledgeBase) (start : String) : List SState :=
  ((start, none) :: kb.data.links.foldr
    (fun l acc => (l.1, some l.2.2.1) :: (l.2.1, some l.2.2.1) :: acc) []).dedup

/-- A bound on the absolute value of any single step cost. -/
def maxStepN (kb : KnowledgeBase) : ℕ :=
  kb.data.links.foldl (fun m l => max m l.2.2.2.natAbs) 0
    + kb.data.transfer_penalty.natAbs + 2

/-- Fuel that provably dominates the loop measure (termination theorem). -/
def sufficientFuel (kb : KnowledgeBase) (start : String) : ℕ :=
  let N := (allStates kb start).length
  (N + 1) * (N * maxStepN kb + 2) + 2

instance : DecidableEq (Except AErr (Option (List SState × ℤ))) :=
  fun x y => exceptDecEq x y

instance : DecidableEq (Option (Except AErr (Option (List SState × ℤ)))) :=
  fun x y => Option.instDecidableEq x y

/-- `a_star(kb, start, goal, criterio)` with the geodesic function
abstracted: run the loop from the initial state with sufficient fuel. -/
def a_star (hav : ℚ × ℚ → ℚ × ℚ → ℚ) (kb : KnowledgeBase)
    (start goal criterio : String) :
    Option (Except AErr (Option (List SState × ℤ))) :=
  astarLoop hav kb goal criterio (sufficientFuel kb start) (initState start)

/-- The per-pair accumulation loop of `explain_route`: walks consecutive
state pairs carrying the previous state (`none` at index 0), re-locates the
link by first neighbor match, skips the pair when no link is found, and
applies the source's transfer test
`i > 0 and path_states[i][1] != path_states[i-1][1] and path_states[i][1] is not None`.
Returns (segment list, total time, transfers, hops). -/
def erLoop (kb : KnowledgeBase) :
    Option SState → SState → List SState →
    List (String × String × String × ℤ × ℤ) × ℤ × ℕ × ℕ
  | _, _, [] => ([], 0, 0, 0)
  | prev, (u, lu), (v, lv) :: rest =>
    let tail := erLoop kb (some (u, lu)) (v, lv) rest
    match (kb.neighbors u).find? (fun L => L.1 = v) with
    | none => tail
    | some (_, line, base_t) =>
      let tr : Bool :=
        match prev with
        | none => false
        | some (_, plu) => decide (lu ≠ plu) && lu.isSome
      let penalty : ℤ := if tr then kb.data.transfer_penalty else 0
      ((u, v, line, base_t, penalty) :: tail.1,
        base_t + penalty + tail.2.1,
        (if tr then 1 else 0) + tail.2.2.1,
        1 + tail.2.2.2)

/-- The route-string construction loop of `explain_route`. -/
def erSteps : Option String → List (String × String × String × ℤ × ℤ) → List String
  | _, [] => []
  | prev_line, (u, v, line, _, _) :: rest =>
    (if prev_line = none then [u ++ " ──(" ++ line ++ ")→ " ++ v]
     else if some line ≠ prev_line then
       ["[Transbordo] " ++ u ++ " ⇄ " ++ v, u ++ " ──(" ++ line ++ ")→ " ++ v]
     else [u ++ " → " ++ v]) ++ erSteps (some line) rest

/-- `explain_route(kb, path_states)`: returns
(route string, total time, transfers, hops). -/
def explain_route (kb : KnowledgeBase) (path_states : List SState) :
    String × ℤ × ℕ × ℕ :=
  match path_states with
  | [] => ("No se encontró ruta.", 0, 0, 0)
  | s0 :: rest =>
    let acc := erLoop kb none s0 rest
    let steps0 := erSteps none acc.1
    let last_station := ((s0 :: rest).getLast (List.cons_ne_nil s0 rest)).1
    let steps :=
      if steps0 = [] ∨ ¬ (steps0.getLast?.getD "").endsWith last_station then
        steps0 ++ [last_station]
      else steps0
    (String.intercalate "\n" steps, acc.2.1, acc.2.2.1, acc.2.2.2)

/-! ## Specification-side notions: valid walks and their costs

A valid path of the spec ("R1: movement only along a direct link") is a walk
whose successive edges are taken from the adjacency lists; its cumulative
cost applies the per-criterion step-cost rule at each edge. -/

/-- Total version of the step-cost dispatch, used to price spec-level walks
(the default 0 branch is only reachable for unsupported criteria, which the
optimality statements exclude). -/
def stepVal (kb : KnowledgeBase) (criterio : String) (last_line : Option String)
    (line : String) (base_t : ℤ) : ℤ :=
  (stepOf kb criterio last_line line base_t).getD 0

/-- A valid walk from a search state: every edge `(v, line, t)` is a member
of the adjacency list of the current station, and riding it moves to state
`(v, some line)`. -/
def walkOK (kb : KnowledgeBase) : SState → List (String × String × ℤ) → Bool
  | _, [] => true
  | s, e :: rest => decide (e ∈ kb.neighbors s.1) && walkOK kb (e.1, some e.2.1) rest

/-- The state a walk ends in. -/
def walkEnd : SState → List (String × String × ℤ) → SState
  | s, [] => s
  | _, e :: rest => walkEnd (e.1, some e.2.1) rest

/-- Cumulative cost of a walk under a criterion's step-cost rule. -/
def walkCost (kb : KnowledgeBase) (criterio : String) :
    SState → List (String × String × ℤ) → ℤ
  | _, [] => 0
  | s, e :: rest =>
    stepVal kb criterio s.2 e.2.1 e.2.2 + walkCost kb criterio (e.1, some e.2.1) rest

/-- The state sequence a walk passes through (including the start state). -/
def chainOf : SState → List (String × String × ℤ) → List SState
  | s, [] => [s]
  | s, e :: rest => s :: chainOf (e.1, some e.2.1) rest

/-! ## Concrete datasets used by the closed theorems -/

/-- The spec's transfer-accounting example: A-B on line 1 (5 min), B-C on
line 2 (4 min), penalty 3.  All stations share one coordinate point, so the
source's haversine heuristic is exactly 0 everywhere (`havZero`). -/
def c4data : RPData :=
  { stations := [("A", (0, 0)), ("B", (0, 0)), ("C", (0, 0))],
    links := [("A", "B", "1", 5), ("B", "C", "2", 4)],
    transfer_penalty := 3 }

/-- The geodesic function between identical coordinate points: the float
`haversine(p, p)` of the source is exactly 0.0 (`a = 0`, `atan2(0, 1) = 0`),
so this is the exact value of the source heuristic on `c4data`. -/
def havZero : ℚ × ℚ → ℚ × ℚ → ℚ := fun _ _ => 0

/-- Same network as `c4data` but with both links on line 1: a two-segment
single-line path, the spec's zero-transfer case. -/
def c3data : RPData :=
  { stations := [("A", (0, 0)), ("B", (0, 0)), ("C", (0, 0))],
    links := [("A", "B", "1", 5), ("B", "C", "1", 4)],
    transfer_penalty := 3 }

/-- A dataset violating both documented construction invariants: the only
link has negative base time -5 and references station B, which has no
coordinates entry. -/
def badData : RPData :=
  { stations := [("A", (0, 0))], links := [("A", "B", "1", -5)], transfer_penalty := 3 }

/-- Heuristic counterexample network: a direct X-Z link of time 10, and a
cheap detour X-Y-Z of total time 2 through Y, which sits at latitude 90
while X and Z share latitude/longitude 0.  All links on one line. -/
def cexData : RPData :=
  { stations := [("X", (0, 0)), ("Y", (90, 0)), ("Z", (0, 0))],
    links := [("X", "Z", "a", 10), ("X", "Y", "a", 1), ("Y", "Z", "a", 1)],
    transfer_penalty := 3 }

/-- The source heuristic on `cexData`'s coordinates: `haversine(p, p)` is
exactly 0, and `haversine((90,0), (0,0))` is 6371 * pi / 2, strictly between
10006 and 10009 km (the float computes a value in that interval as well);
any value above 4.5 leads to the same branch decisions, so 10008 is taken.
Only the comparisons 0 < 10008 + 1 - 10 matter to the run below. -/
def cexHav : ℚ × ℚ → ℚ × ℚ → ℚ :=
  fun c _ => if c = ((90 : ℚ), (0 : ℚ)) then 10008 else 0

/-! ## Invariant notions for the search proofs

These are proof-side definitions: a potential-based loop measure, the
property that an adjacency table indeed comes from the link list, bounds on
the step costs, and the invariants that tie the frontier, the cost table,
the parent table and the (ghost) set of already-expanded states together. -/

/-- Potential of one state's best-known-cost entry: an untouched state has
the largest potential, and every strict improvement decreases it. -/
def pot (B : ℕ) : Option ℤ → ℕ
  | none => B + 1
  | some v => v.toNat

/-- Upper bound on every cost ever stored in `g_cost`. -/
def costBound (kb : KnowledgeBase) (start : String) : ℕ :=
  (allStates kb start).length * maxStepN kb

/-- Total potential of the cost table over all possible states. -/
def potSum (kb : KnowledgeBase) (start : String) (g : List (SState × ℤ)) : ℕ :=
  ((allStates kb start).map (fun s => pot (costBound kb start) (lookupA g s))).sum

/-- The loop measure: frontier size plus total potential. -/
def muA (kb : KnowledgeBase) (start : String) (st : AState) : ℕ :=
  st.openpq.length + potSum kb start st.g_cost

/-- Every adjacency entry originates from some link of the dataset (true of
every knowledge base built by the constructor). -/
def GraphFromLinks (kb : KnowledgeBase) : Prop :=
  ∀ (u : String), ∀ e ∈ kb.neighbors u,
    ∃ l ∈ kb.data.links, l.2.2.1 = e.2.1 ∧ l.2.2.2 = e.2.2 ∧ (e.1 = l.1 ∨ e.1 = l.2.1)

/-- Every step cost the dispatch can produce on an actual edge is
non-negative and bounded by `maxStepN`. -/
def StepBounds (kb : KnowledgeBase) (criterio : String) : Prop :=
  ∀ (u : String) (ll : Option String), ∀ e ∈ kb.neighbors u, ∀ c,
    stepOf kb criterio ll e.2.1 e.2.2 = some c → 0 ≤ c ∧ c ≤ (maxStepN kb : ℤ)

/-- A well-formed parent chain: following `parents` from a state reaches the
start state, every hop is an actual edge whose step cost is dominated by the
difference of the stored costs, and no state repeats. -/
inductive GoodChain (kb : KnowledgeBase) (criterio : String) (start : String)
    (g : List (SState × ℤ)) (par : List (SState × Option SState)) :
    SState → List SState → Prop where
  | base :
      lookupA par (start, none) = some none →
      GoodChain kb criterio start g par (start, none) [(start, none)]
  | step {u : SState} {L : List SState} {v line : String} {t gu gx : ℤ} :
      GoodChain kb criterio start g par u L →
      lookupA par (v, some line) = some (some u) →
      (v, line, t) ∈ kb.neighbors u.1 →
      lookupA g u = some gu →
      lookupA g (v, some line) = some gx →
      gu + stepVal kb criterio u.2 line t ≤ gx →
      (v, some line) ∉ L →
      GoodChain kb criterio start g par (v, some line) ((v, some line) :: L)

/-- The structural loop invariant: well-formed keys, bounded non-negative
costs, a zero-cost start entry, parent chains for every stored state, and a
frontier that only mentions stored states. -/
structure InvT (kb : KnowledgeBase) (start criterio : String) (st : AState) : Prop where
  keysEq : st.parents.map Prod.fst = st.g_cost.map Prod.fst
  keysNd : (st.g_cost.map Prod.fst).Nodup
  keysSub : ∀ s ∈ st.g_cost.map Prod.fst, s ∈ allStates kb start
  pqG : ∀ pe ∈ st.openpq, (lookupA st.g_cost pe.2).isSome = true
  gNonneg : ∀ p ∈ st.g_cost, 0 ≤ p.2
  gBound : ∀ p ∈ st.g_cost, p.2 ≤ ((st.g_cost.length : ℤ) - 1) * (maxStepN kb : ℤ)
  gStart : lookupA st.g_cost (start, none) = some 0
  parNone : ∀ p ∈ st.parents, (p.2 = none ↔ p.1 = (start, none))
  chain : ∀ p ∈ st.g_cost, ∃ L, GoodChain kb criterio start st.g_cost st.parents p.1 L

/-- The optimality invariant (used for the zero-heuristic criteria, where a
pushed priority is exactly the stored cost): every frontier entry dominates
the stored cost of its state; every stored state is either already expanded
(in the ghost list `closed`) or present in the frontier at exactly its
stored cost; every expanded state has all its outgoing edges relaxed unless
it has been re-queued; and no expanded state is a goal state. -/
structure InvO (kb : KnowledgeBase) (start goal criterio : String)
    (closedW closedR : List SState) (st : AState) : Prop where
  pqLe : ∀ pe ∈ st.openpq, ∀ gv, lookupA st.g_cost pe.2 = some gv → (gv : ℚ) ≤ pe.1
  pqWitness : ∀ p ∈ st.g_cost, p.1 ∈ closedW ∨ ((p.2 : ℚ), p.1) ∈ st.openpq
  closedRel : ∀ s ∈ closedR, ∀ gv, lookupA st.g_cost s = some gv →
      ∀ e ∈ kb.neighbors s.1, ∀ step, stepOf kb criterio s.2 e.2.1 e.2.2 = some step →
        (∃ gw, lookupA st.g_cost (e.1, some e.2.1) = some gw ∧ gw ≤ gv + step) ∨
        ((gv : ℚ), s) ∈ st.openpq
  closedNotGoal : ∀ s ∈ closedW, s.1 ≠ goal

/-- What an abnormal (exception) result of the loop can be: a state-keyed
`KeyError` never escapes, `ValueError` only for an unsupported criterion,
and a station-keyed `KeyError` only under `tiempo` for a station without
coordinates that is either the goal or some adjacency target. -/
def ErrCaseOf (kb : KnowledgeBase) (goal criterio : String) : AErr → Prop
  | .keyErrorState _ => False
  | .valueError => criterio ≠ "tiempo" ∧ criterio ≠ "saltos" ∧ criterio ≠ "transbordos"
  | .keyError s2 => criterio = "tiempo" ∧ lookupA kb.data.stations s2 = none ∧
      (s2 = goal ∨ ∃ u : String, ∃ e ∈ kb.neighbors u, e.1 = s2)

/-! ## Basic lemmas about the dictionary model -/

theorem lookupA_setA_self {α β : Type} [DecidableEq α] (l : List (α × β)) (a : α) (b : β) :
    lookupA (setA l a b) a = some b := by
  induction l with
  | nil => simp [setA, lookupA]
  | cons h rest ih =>
    obtain ⟨k, v⟩ := h
    by_cases hk : k = a
    · subst hk; simp [setA, lookupA]
    · simp [setA, lookupA, hk, ih]

theorem lookupA_setA_ne {α β : Type} [DecidableEq α] (l : List (α × β)) (a a2 : α) (b : β)
    (h : a2 ≠ a) : lookupA (setA l a b) a2 = lookupA l a2 := by
  induction l with
  | nil =>
    simp only [setA, lookupA]
    rw [if_neg (fun hc => h hc.symm)]
  | cons hd rest ih =>
    obtain ⟨k, v⟩ := hd
    by_cases hk : k = a
    · subst hk
      simp only [setA, if_pos rfl, lookupA]
      rw [if_neg (fun hc => h hc.symm), if_neg (fun hc => h hc.symm)]
    · simp [setA, lookupA, hk, ih]

theorem lookupA_eq_none_iff {α β : Type} [DecidableEq α] (l : List (α × β)) (a : α) :
    lookupA l a = none ↔ a ∉ l.map Prod.fst := by
  induction l with
  | nil => simp [lookupA]
  | cons h rest ih =>
    obtain ⟨k, v⟩ := h
    by_cases hk : k = a
    · subst hk; simp [lookupA]
    · simp only [lookupA, if_neg hk, ih, List.map_cons, List.mem_cons]
      constructor
      · intro hna hor
        rcases hor with h1 | h1
        · exact hk h1.symm
        · exact hna h1
      · intro hna h1
        exact hna (Or.inr h1)

theorem lookupA_mem {α β : Type} [DecidableEq α] {l : List (α × β)} {a : α} {b : β}
    (h : lookupA l a = some b) : (a, b) ∈ l := by
  induction l with
  | nil => simp [lookupA] at h
  | cons hd rest ih =>
    obtain ⟨k, v⟩ := hd
    by_cases hk : k = a
    · subst hk
      rw [show lookupA ((k, v) :: rest) k = some v from by simp [lookupA]] at h
      cases h
      exact List.mem_cons_self _ _
    · simp only [lookupA, if_neg hk] at h
      exact List.mem_cons_of_mem _ (ih h)

theorem lookupA_mem_keys {α β : Type} [DecidableEq α] {l : List (α × β)} {a : α} {b : β}
    (h : lookupA l a = some b) : a ∈ l.map Prod.fst :=
  List.mem_map_of_mem Prod.fst (lookupA_mem h)

theorem lookupA_isSome_iff {α β : Type} [DecidableEq α] (l : List (α × β)) (a : α) :
    (lookupA l a).isSome = true ↔ a ∈ l.map Prod.fst := by
  constructor
  · intro h
    obtain ⟨b, hb⟩ := Option.isSome_iff_exists.mp h
    exact lookupA_mem_keys hb
  · intro h
    by_contra hc
    have hn : lookupA l a = none := Option.not_isSome_iff_eq_none.mp (by simpa using hc)
    exact (lookupA_eq_none_iff l a).mp hn h

theorem setA_map_fst_mem {α β : Type} [DecidableEq α] (l : List (α × β)) (a : α) (b : β)
    (h : a ∈ l.map Prod.fst) : (setA l a b).map Prod.fst = l.map Prod.fst := by
  induction l with
  | nil => simp at h
  | cons hd rest ih =>
    obtain ⟨k, v⟩ := hd
    by_cases hk : k = a
    · subst hk; simp [setA]
    · simp only [List.map_cons, List.mem_cons] at h
      rcases h with h | h
      · exact absurd h.symm hk
      · simp [setA, hk, ih h]

theorem setA_map_fst_not_mem {α β : Type} [DecidableEq α] (l : List (α × β)) (a : α) (b : β)
    (h : a ∉ l.map Prod.fst) : (setA l a b).map Prod.fst = l.map Prod.fst ++ [a] := by
  induction l with
  | nil => simp [setA]
  | cons hd rest ih =>
    obtain ⟨k, v⟩ := hd
    simp only [List.map_cons, List.mem_cons] at h
    push_neg at h
    simp only [setA]
    rw [if_neg (fun hc => h.1 hc.symm)]
    simp [ih h.2]

theorem popMin_eq_none_iff (l : List (ℚ × SState)) : popMin l = none ↔ l = [] := by
  cases l with
  | nil => simp [popMin]
  | cons e rest =>
    simp only [popMin]
    constructor
    · intro h
      cases hr : popMin rest with
      | none => rw [hr] at h; simp at h
      | some m =>
        obtain ⟨p, r2⟩ := m
        rw [hr] at h
        dsimp only at h
        by_cases hc : e.1 ≤ p.1 <;> simp [hc] at h
    · intro h; cases h

theorem popMin_perm {l l2 : List (ℚ × SState)} {m : ℚ × SState}
    (h : popMin l = some (m, l2)) : l.Perm (m :: l2) := by
  induction l generalizing m l2 with
  | nil => simp [popMin] at h
  | cons e rest ih =>
    simp only [popMin] at h
    cases hr : popMin rest with
    | none =>
      rw [hr] at h
      dsimp only at h
      have hrest : rest = [] := (popMin_eq_none_iff rest).mp hr
      subst hrest
      simp only [Option.some.injEq, Prod.mk.injEq] at h
      rw [← h.1, ← h.2]
    | some m2 =>
      obtain ⟨m2e, r2⟩ := m2
      rw [hr] at h
      dsimp only at h
      by_cases hc : e.1 ≤ m2e.1
      · rw [if_pos hc] at h
        simp only [Option.some.injEq, Prod.mk.injEq] at h
        rw [← h.1, ← h.2]
      · rw [if_neg hc] at h
        simp only [Option.some.injEq, Prod.mk.injEq] at h
        obtain ⟨h1, h2⟩ := h
        subst h1
        subst h2
        exact (List.Perm.cons e (ih hr)).trans (List.Perm.swap _ e r2)

theorem popMin_min {l l2 : List (ℚ × SState)} {m : ℚ × SState}
    (h : popMin l = some (m, l2)) : ∀ e ∈ l, m.1 ≤ e.1 := by
  induction l generalizing m l2 with
  | nil => simp [popMin] at h
  | cons e rest ih =>
    simp only [popMin] at h
    cases hr : popMin rest with
    | none =>
      rw [hr] at h
      dsimp only at h
      have hrest : rest = [] := (popMin_eq_none_iff rest).mp hr
      subst hrest
      simp only [Option.some.injEq, Prod.mk.injEq] at h
      intro x hx
      simp only [List.mem_singleton] at hx
      rw [← h.1, hx]
    | some m2 =>
      obtain ⟨m2e, r2⟩ := m2
      rw [hr] at h
      dsimp only at h
      by_cases hc : e.1 ≤ m2e.1
      · rw [if_pos hc] at h
        simp only [Option.some.injEq, Prod.mk.injEq] at h
        obtain ⟨h1, -⟩ := h
        subst h1
        intro x hx
        rcases List.mem_cons.mp hx with hx | hx
        · rw [hx]
        · exact le_trans hc (ih hr x hx)
      · rw [if_neg hc] at h
        simp only [Option.some.injEq, Prod.mk.injEq] at h
        obtain ⟨h1, -⟩ := h
        subst h1
        intro x hx
        rcases List.mem_cons.mp hx with hx | hx
        · rw [hx]; exact le_of_lt (lt_of_not_le hc)
        · exact ih hr x hx

/-! ## Graph construction facts -/

theorem lookupA_addEdge_getD (g : List (String × List (String × String × ℤ)))
    (a : String) (e : String × String × ℤ) (u : String) :
    (lookupA (addEdge g a e) u).getD [] =
      if u = a then ((lookupA g a).getD []) ++ [e] else (lookupA g u).getD [] := by
  unfold addEdge
  by_cases hu : u = a
  · subst hu; rw [lookupA_setA_self]; simp
  · rw [lookupA_setA_ne _ _ _ _ hu, if_neg hu]

theorem buildGraph_aux_mem (links : List (String × String × String × ℤ))
    (g0 : List (String × List (String × String × ℤ))) (u : String)
    (e : String × String × ℤ)
    (h : e ∈ (lookupA (links.foldl
        (fun g l => addEdge (addEdge g l.1 (l.2.1, l.2.2.1, l.2.2.2))
          l.2.1 (l.1, l.2.2.1, l.2.2.2)) g0) u).getD []) :
    e ∈ (lookupA g0 u).getD [] ∨
      ∃ l ∈ links, l.2.2.1 = e.2.1 ∧ l.2.2.2 = e.2.2 ∧ (e.1 = l.1 ∨ e.1 = l.2.1) := by
  induction links generalizing g0 with
  | nil => exact Or.inl h
  | cons l rest ih =>
    simp only [List.foldl_cons] at h
    rcases ih _ h with h2 | h2
    · rw [lookupA_addEdge_getD] at h2
      by_cases hb : u = l.2.1
      · rw [if_pos hb] at h2
        rcases List.mem_append.mp h2 with h3 | h3
        · rw [lookupA_addEdge_getD] at h3
          by_cases ha : l.2.1 = l.1
          · rw [if_pos ha] at h3
            rcases List.mem_append.mp h3 with h4 | h4
            · exact Or.inl (by rw [hb, ha]; exact h4)
            · simp only [List.mem_singleton] at h4
              subst h4
              exact Or.inr ⟨l, List.mem_cons_self _ _, rfl, rfl, Or.inr rfl⟩
          · rw [if_neg ha] at h3
            exact Or.inl (by rw [hb]; exact h3)
        · simp only [List.mem_singleton] at h3
          subst h3
          exact Or.inr ⟨l, List.mem_cons_self _ _, rfl, rfl, Or.inl rfl⟩
      · rw [if_neg hb, lookupA_addEdge_getD] at h2
        by_cases ha : u = l.1
        · rw [if_pos ha] at h2
          rcases List.mem_append.mp h2 with h3 | h3
          · exact Or.inl (by rw [ha]; exact h3)
          · simp only [List.mem_singleton] at h3
            subst h3
            exact Or.inr ⟨l, List.mem_cons_self _ _, rfl, rfl, Or.inr rfl⟩
        · rw [if_neg ha] at h2
          exact Or.inl h2
    · obtain ⟨l2, hl2, hrest⟩ := h2
      exact Or.inr ⟨l2, List.mem_cons_of_mem _ hl2, hrest⟩

theorem kbOfData_graphFromLinks (d : RPData) : GraphFromLinks (kbOfData d) := by
  intro u e he
  have h0 := buildGraph_aux_mem d.links [] u e (by
    simpa [KnowledgeBase.neighbors, kbOfData, buildGraph] using he)
  rcases h0 with h | h
  · simp [lookupA] at h
  · exact h

theorem allStates_nodup (kb : KnowledgeBase) (start : String) :
    (allStates kb start).Nodup := List.nodup_dedup _

theorem start_mem_allStates (kb : KnowledgeBase) (start : String) :
    (start, none) ∈ allStates kb start := by
  simp only [allStates, List.mem_dedup]
  exact List.mem_cons_self _ _

theorem mem_statesFold (links : List (String × String × String × ℤ))
    (l : String × String × String × ℤ) (h : l ∈ links) :
    (l.1, some l.2.2.1) ∈ links.foldr
        (fun l2 acc => (l2.1, some l2.2.2.1) :: (l2.2.1, some l2.2.2.1) :: acc) [] ∧
    (l.2.1, some l.2.2.1) ∈ links.foldr
        (fun l2 acc => (l2.1, some l2.2.2.1) :: (l2.2.1, some l2.2.2.1) :: acc) [] := by
  induction links with
  | nil => simp at h
  | cons l2 rest ih =>
    rcases List.mem_cons.mp h with h | h
    · subst h
      constructor
      · exact List.mem_cons_self _ _
      · exact List.mem_cons_of_mem _ (List.mem_cons_self _ _)
    · constructor
      · exact List.mem_cons_of_mem _ (List.mem_cons_of_mem _ (ih h).1)
      · exact List.mem_cons_of_mem _ (List.mem_cons_of_mem _ (ih h).2)

theorem target_mem_allStates {kb : KnowledgeBase} (start : String)
    (hGFL : GraphFromLinks kb) {u : String} {e : String × String × ℤ}
    (he : e ∈ kb.neighbors u) :
    (e.1, some e.2.1) ∈ allStates kb start := by
  obtain ⟨l, hl, h1, h2, h3⟩ := hGFL u e he
  simp only [allStates, List.mem_dedup]
  apply List.mem_cons_of_mem
  rcases h3 with h3 | h3
  · have := (mem_statesFold kb.data.links l hl).1
    rw [h3, ← h1]
    exact this
  · have := (mem_statesFold kb.data.links l hl).2
    rw [h3, ← h1]
    exact this

theorem foldl_max_le_seed (links : List (String × String × String × ℤ)) (x : ℕ) :
    x ≤ links.foldl (fun m l => max m l.2.2.2.natAbs) x := by
  induction links generalizing x with
  | nil => exact le_rfl
  | cons l rest ih => exact le_trans (le_max_left x l.2.2.2.natAbs) (ih _)

theorem mem_le_foldl_max (links : List (String × String × String × ℤ)) (x : ℕ)
    (l : String × String × String × ℤ) (h : l ∈ links) :
    l.2.2.2.natAbs ≤ links.foldl (fun m l2 => max m l2.2.2.2.natAbs) x := by
  induction links generalizing x with
  | nil => simp at h
  | cons l2 rest ih =>
    rcases List.mem_cons.mp h with h | h
    · subst h
      exact le_trans (le_max_right x l.2.2.2.natAbs) (foldl_max_le_seed rest _)
    · exact ih _ h

theorem stepBounds_of_nonneg (kb : KnowledgeBase) (criterio : String)
    (hGFL : GraphFromLinks kb)
    (ht : ∀ l ∈ kb.data.links, 0 ≤ l.2.2.2) (hp : 0 ≤ kb.data.transfer_penalty) :
    StepBounds kb criterio := by
  intro u ll e he c hc
  obtain ⟨l, hl, hline, htime, -⟩ := hGFL u e he
  have htpos : 0 ≤ e.2.2 := htime ▸ ht l hl
  have htabs : e.2.2.natAbs ≤ kb.data.links.foldl (fun m l2 => max m l2.2.2.2.natAbs) 0 :=
    htime ▸ mem_le_foldl_max kb.data.links 0 l hl
  have htabs2 : e.2.2 ≤ ((kb.data.links.foldl (fun m l2 => max m l2.2.2.2.natAbs) 0 : ℕ) : ℤ) :=
    le_trans Int.le_natAbs (Nat.cast_le.mpr htabs)
  have hpabs : kb.data.transfer_penalty ≤ (kb.data.transfer_penalty.natAbs : ℤ) :=
    Int.le_natAbs
  have hms : (maxStepN kb : ℤ) =
      ((kb.data.links.foldl (fun m l2 => max m l2.2.2.2.natAbs) 0 : ℕ) : ℤ)
        + ((kb.data.transfer_penalty.natAbs : ℕ) : ℤ) + 2 := by
    unfold maxStepN
    rw [Nat.cast_add, Nat.cast_add]
    norm_num
  unfold stepOf at hc
  split_ifs at hc with h1 h2 h3
  · simp only [Option.some.injEq] at hc
    unfold KnowledgeBase.step_cost at hc
    subst hc
    have hpen : 0 ≤ (if kb.is_transfer ll e.2.1 then kb.data.transfer_penalty else 0) ∧
        (if kb.is_transfer ll e.2.1 then kb.data.transfer_penalty else 0) ≤
          (kb.data.transfer_penalty.natAbs : ℤ) := by
      split
      · exact ⟨hp, hpabs⟩
      · exact ⟨le_rfl, Int.natCast_nonneg _⟩
    constructor
    · omega
    · rw [hms]; omega
  · simp only [Option.some.injEq] at hc
    subst hc
    have hone : (0 : ℤ) ≤ (if kb.is_transfer ll e.2.1 then 1 else 0) ∧
        (if kb.is_transfer ll e.2.1 then (1 : ℤ) else 0) ≤ 1 := by
      split <;> simp
    constructor
    · omega
    · rw [hms]; omega
  · simp only [Option.some.injEq] at hc
    subst hc
    have hone : (0 : ℤ) ≤ (if kb.is_transfer ll e.2.1 then 1 else 0) ∧
        (if kb.is_transfer ll e.2.1 then (1 : ℤ) else 0) ≤ 1 := by
      split <;> simp
    constructor
    · omega
    · rw [hms]; omega

theorem stepVal_nonneg {kb : KnowledgeBase} {criterio : String}
    (hSB : StepBounds kb criterio) {u : String} {ll : Option String}
    {e : String × String × ℤ} (he : e ∈ kb.neighbors u) :
    0 ≤ stepVal kb criterio ll e.2.1 e.2.2 := by
  unfold stepVal
  cases hs : stepOf kb criterio ll e.2.1 e.2.2 with
  | none => simp
  | some c =>
    simp only [Option.getD_some]
    exact (hSB u ll e he c hs).1

/-! ## Walk lemmas -/

theorem walkOK_append (kb : KnowledgeBase) (s : SState)
    (E1 E2 : List (String × String × ℤ)) :
    walkOK kb s (E1 ++ E2) = (walkOK kb s E1 && walkOK kb (walkEnd s E1) E2) := by
  induction E1 generalizing s with
  | nil => simp [walkOK, walkEnd]
  | cons e rest ih => simp [walkOK, walkEnd, ih, Bool.and_assoc]

theorem walkEnd_append (s : SState) (E1 E2 : List (String × String × ℤ)) :
    walkEnd s (E1 ++ E2) = walkEnd (walkEnd s E1) E2 := by
  induction E1 generalizing s with
  | nil => simp [walkEnd]
  | cons e rest ih => simp [walkEnd, ih]

theorem walkCost_append (kb : KnowledgeBase) (criterio : String) (s : SState)
    (E1 E2 : List (String × String × ℤ)) :
    walkCost kb criterio s (E1 ++ E2) =
      walkCost kb criterio s E1 + walkCost kb criterio (walkEnd s E1) E2 := by
  induction E1 generalizing s with
  | nil => simp [walkCost, walkEnd]
  | cons e rest ih =>
    simp only [List.cons_append, walkCost, walkEnd, ih, List.append_eq]
    ring

theorem chainOf_append_single (s : SState) (E : List (String × String × ℤ))
    (v line : String) (t : ℤ) :
    chainOf s (E ++ [(v, line, t)]) = chainOf s E ++ [(v, some line)] := by
  induction E generalizing s with
  | nil => simp [chainOf]
  | cons e rest ih => simp [chainOf, ih]

/-! ## Parent-chain lemmas -/

theorem gc_head {kb : KnowledgeBase} {criterio start : String}
    {g : List (SState × ℤ)} {par : List (SState × Option SState)}
    {s : SState} {L : List SState}
    (hgc : GoodChain kb criterio start g par s L) : ∃ L2, L = s :: L2 := by
  cases hgc with
  | base _ => exact ⟨[], rfl⟩
  | step _ _ _ _ _ _ _ => exact ⟨_, rfl⟩

theorem gc_nodup {kb : KnowledgeBase} {criterio start : String}
    {g : List (SState × ℤ)} {par : List (SState × Option SState)}
    {s : SState} {L : List SState}
    (hgc : GoodChain kb criterio start g par s L) : L.Nodup := by
  induction hgc with
  | base _ => simp
  | step _ _ _ _ _ _ hnotin ih => exact List.nodup_cons.mpr ⟨hnotin, ih⟩

theorem gc_mem_par {kb : KnowledgeBase} {criterio start : String}
    {g : List (SState × ℤ)} {par : List (SState × Option SState)}
    {s : SState} {L : List SState}
    (hgc : GoodChain kb criterio start g par s L) :
    ∀ z ∈ L, (lookupA par z).isSome = true := by
  induction hgc with
  | base hpar =>
    intro z hz
    simp only [List.mem_singleton] at hz
    subst hz
    simp [hpar]
  | step hprev hpar _ _ _ _ _ ih =>
    intro z hz
    rcases List.mem_cons.mp hz with hz | hz
    · subst hz; simp [hpar]
    · exact ih z hz

theorem gc_g_le {kb : KnowledgeBase} {criterio start : String}
    {g : List (SState × ℤ)} {par : List (SState × Option SState)}
    (hSB : StepBounds kb criterio) {s : SState} {L : List SState}
    (hgc : GoodChain kb criterio start g par s L) :
    ∀ gs, lookupA g s = some gs → ∀ z ∈ L, ∃ gz, lookupA g z = some gz ∧ gz ≤ gs := by
  induction hgc with
  | base hpar =>
    intro gs hgs z hz
    simp only [List.mem_singleton] at hz
    subst hz
    exact ⟨gs, hgs, le_rfl⟩
  | step hprev hpar he hgu hgx hle hnotin ih =>
    rename_i u L2 v line t gu gx
    intro gs hgs z hz
    have hgseq : gs = gx := by rw [hgs] at hgx; exact Option.some.inj hgx
    subst hgseq
    rcases List.mem_cons.mp hz with hz | hz
    · subst hz; exact ⟨gs, hgs, le_rfl⟩
    · obtain ⟨gz, hgz, hgzle⟩ := ih gu hgu z hz
      refine ⟨gz, hgz, le_trans hgzle ?_⟩
      have hsv : 0 ≤ stepVal kb criterio u.2 line t :=
        stepVal_nonneg hSB (u := u.1) (e := (v, line, t)) he
      omega

theorem gc_parChain {kb : KnowledgeBase} {criterio start : String}
    {g : List (SState × ℤ)} {par : List (SState × Option SState)}
    {s : SState} {L : List SState}
    (hgc : GoodChain kb criterio start g par s L) :
    ∀ fuel, L.length ≤ fuel → parChain par fuel s = some (.ok L) := by
  induction hgc with
  | base hpar =>
    intro fuel hf
    cases fuel with
    | zero => simp at hf
    | succ f => simp [parChain, hpar]
  | step hprev hpar _ _ _ _ _ ih =>
    intro fuel hf
    cases fuel with
    | zero => simp at hf
    | succ f =>
      simp only [List.length_cons, Nat.succ_le_succ_iff] at hf
      simp [parChain, hpar, ih f hf]

theorem gc_subset_keys {kb : KnowledgeBase} {criterio start : String}
    {g : List (SState × ℤ)} {par : List (SState × Option SState)}
    {s : SState} {L : List SState}
    (hgc : GoodChain kb criterio start g par s L) :
    ∀ z ∈ L, z ∈ par.map Prod.fst := by
  intro z hz
  obtain ⟨pv, hpv⟩ := Option.isSome_iff_exists.mp (gc_mem_par hgc z hz)
  exact lookupA_mem_keys hpv

theorem gc_length_le {kb : KnowledgeBase} {criterio start : String}
    {g : List (SState × ℤ)} {par : List (SState × Option SState)}
    {s : SState} {L : List SState}
    (hgc : GoodChain kb criterio start g par s L) : L.length ≤ par.length := by
  have h1 : L.length = L.toFinset.card := (List.toFinset_card_of_nodup (gc_nodup hgc)).symm
  have h2 : L.toFinset ⊆ (par.map Prod.fst).toFinset := by
    intro z hz
    rw [List.mem_toFinset] at hz ⊢
    exact gc_subset_keys hgc z hz
  calc L.length = L.toFinset.card := h1
    _ ≤ (par.map Prod.fst).toFinset.card := Finset.card_le_card h2
    _ ≤ (par.map Prod.fst).length := (par.map Prod.fst).toFinset_card_le
    _ = par.length := List.length_map par Prod.fst

theorem gc_walk {kb : KnowledgeBase} {criterio start : String}
    {g : List (SState × ℤ)} {par : List (SState × Option SState)}
    (hSB : StepBounds kb criterio) {s : SState} {L : List SState}
    (hgc : GoodChain kb criterio start g par s L)
    (hstart : lookupA g (start, none) = some 0) :
    ∀ gs, lookupA g s = some gs →
      ∃ E, walkOK kb (start, none) E = true ∧ walkEnd (start, none) E = s ∧
        chainOf (start, none) E = L.reverse ∧
        walkCost kb criterio (start, none) E ≤ gs := by
  induction hgc with
  | base hpar =>
    intro gs hgs
    refine ⟨[], rfl, rfl, by simp [chainOf], ?_⟩
    rw [hstart] at hgs
    cases hgs
    simp [walkCost]
  | step hprev hpar he hgu hgx hle hnotin ih =>
    rename_i u L2 v line t gu gx
    intro gs hgs
    have hgseq : gs = gx := by rw [hgs] at hgx; exact Option.some.inj hgx
    subst hgseq
    obtain ⟨E, hOK, hend, hchain, hcost⟩ := ih gu hgu
    refine ⟨E ++ [(v, line, t)], ?_, ?_, ?_, ?_⟩
    · rw [walkOK_append, hOK, hend]
      simp [walkOK, he]
    · rw [walkEnd_append, hend]
      rfl
    · rw [chainOf_append_single, hchain]
      simp
    · rw [walkCost_append, hend]
      simp only [walkCost, add_zero]
      omega

/-! ## Preservation of parent chains under one improving update -/

theorem takeWhile_ne_cons_pos (x a : SState) (l : List SState) (h : a ≠ x) :
    (a :: l).takeWhile (fun z => decide (z ≠ x)) =
      a :: l.takeWhile (fun z => decide (z ≠ x)) :=
  List.takeWhile_cons_of_pos (decide_eq_true h)

theorem takeWhile_ne_cons_neg (x : SState) (l : List SState) :
    (x :: l).takeWhile (fun z => decide (z ≠ x)) = [] :=
  List.takeWhile_cons_of_neg (by simp)

theorem gc_preserve_not_mem {kb : KnowledgeBase} {criterio start : String}
    {g : List (SState × ℤ)} {par : List (SState × Option SState)}
    {x : SState} {b : ℤ} {p : Option SState} {s : SState} {L : List SState}
    (hgc : GoodChain kb criterio start g par s L) (hx : x ∉ L) :
    GoodChain kb criterio start (setA g x b) (setA par x p) s L := by
  induction hgc with
  | base hpar =>
    apply GoodChain.base
    rw [lookupA_setA_ne _ _ _ _ (by
      intro hc
      exact hx (hc ▸ List.mem_cons_self _ _))]
    exact hpar
  | step hprev hpar he hgu hgx hle hni ih =>
    rename_i u L2 v line t gu gx
    have hxhead : (v, some line) ≠ x := by
      intro hc
      exact hx (hc ▸ List.mem_cons_self _ _)
    have hxL2 : x ∉ L2 := fun hc => hx (List.mem_cons_of_mem _ hc)
    have huL2 : u ∈ L2 := by
      obtain ⟨L3, hL3⟩ := gc_head hprev
      rw [hL3]
      exact List.mem_cons_self _ _
    have hux : u ≠ x := fun hc => hxL2 (hc ▸ huL2)
    exact GoodChain.step (ih hxL2)
      (by rw [lookupA_setA_ne _ _ _ _ hxhead]; exact hpar) he
      (by rw [lookupA_setA_ne _ _ _ _ hux]; exact hgu)
      (by rw [lookupA_setA_ne _ _ _ _ hxhead]; exact hgx)
      hle hni

theorem gc_update_chain {kb : KnowledgeBase} {criterio start : String}
    {g : List (SState × ℤ)} {par : List (SState × Option SState)}
    (hSB : StepBounds kb criterio)
    {u : SState} {gu step : ℤ} {v line : String} {t : ℤ} {Lu : List SState}
    (hgu : lookupA g u = some gu)
    (he : (v, line, t) ∈ kb.neighbors u.1)
    (hstepval : stepVal kb criterio u.2 line t = step)
    (himp : lookupA g (v, some line) = none ∨
      ∃ gx0, lookupA g (v, some line) = some gx0 ∧ gu + step < gx0)
    (hchainu : GoodChain kb criterio start g par u Lu) :
    ∀ {s : SState} {L : List SState}, GoodChain kb criterio start g par s L →
      GoodChain kb criterio start (setA g (v, some line) (gu + step))
        (setA par (v, some line) (some u)) s
        (if (v, some line) ∈ L then
          L.takeWhile (fun z => decide (z ≠ (v, some line))) ++ ((v, some line) :: Lu)
         else L) := by
  have hstepnn : 0 ≤ step := hstepval ▸ stepVal_nonneg hSB (e := (v, line, t)) he
  have hxLu : (v, some line) ∉ Lu := by
    intro hc
    obtain ⟨gz, hgz, hgzle⟩ := gc_g_le hSB hchainu gu hgu _ hc
    rcases himp with h | ⟨gx0, hgx0, hlt⟩
    · rw [h] at hgz; cases hgz
    · rw [hgx0] at hgz
      cases hgz
      omega
  have hux : u ≠ (v, some line) := by
    intro hc
    rcases himp with h | ⟨gx0, hgx0, hlt⟩
    · rw [← hc, hgu] at h; cases h
    · rw [← hc, hgu] at hgx0
      cases hgx0
      omega
  have hchainu2 : GoodChain kb criterio start (setA g (v, some line) (gu + step))
      (setA par (v, some line) (some u)) u Lu := gc_preserve_not_mem hchainu hxLu
  have hchainx : GoodChain kb criterio start (setA g (v, some line) (gu + step))
      (setA par (v, some line) (some u)) (v, some line) ((v, some line) :: Lu) := by
    refine GoodChain.step hchainu2 (lookupA_setA_self _ _ _) he
      (by rw [lookupA_setA_ne _ _ _ _ hux]; exact hgu)
      (lookupA_setA_self _ _ _) ?_ hxLu
    rw [hstepval]
  intro s L hgc
  induction hgc with
  | base hpar =>
    have hxs : ((start, none) : SState) ≠ (v, some line) := by simp
    rw [if_neg (by simpa using hxs)]
    apply GoodChain.base
    rw [lookupA_setA_ne _ _ _ _ hxs]
    exact hpar
  | step hprev hpar2 he2 hgu2 hgx2 hle2 hni2 ih =>
    rename_i u2 L2 v2 line2 t2 gu2 gx2
    have hsv2nn : 0 ≤ stepVal kb criterio u2.2 line2 t2 :=
      stepVal_nonneg hSB (e := (v2, line2, t2)) he2
    by_cases hy : ((v2, some line2) : SState) = (v, some line)
    · rw [if_pos (hy ▸ List.mem_cons_self _ _)]
      rw [hy, takeWhile_ne_cons_neg]
      exact hchainx
    · -- head differs from the updated state
      have hg2y : lookupA (setA g (v, some line) (gu + step)) (v2, some line2) = some gx2 := by
        rw [lookupA_setA_ne _ _ _ _ hy]; exact hgx2
      have hp2y : lookupA (setA par (v, some line) (some u)) (v2, some line2) =
          some (some u2) := by
        rw [lookupA_setA_ne _ _ _ _ hy]; exact hpar2
      by_cases hmem : ((v, some line) : SState) ∈ L2
      · -- the updated state lies strictly inside the old chain: reroute there
        rw [if_pos (List.mem_cons_of_mem _ hmem)]
        rw [takeWhile_ne_cons_pos _ _ _ hy]
        rw [if_pos hmem] at ih
        -- x has a stored old cost, and it exceeds gu + step
        obtain ⟨gxo, hgxo, hgxole⟩ := gc_g_le hSB hprev gu2 hgu2 _ hmem
        have himp2 : gu + step < gxo := by
          rcases himp with h | ⟨gx0, hgx0, hlt⟩
          · rw [h] at hgxo; cases hgxo
          · rw [hgx0] at hgxo; cases hgxo; omega
        have hnotin2 : ((v2, some line2) : SState) ∉
            (L2.takeWhile (fun z => decide (z ≠ (v, some line))) ++ ((v, some line) :: Lu)) := by
          intro hc
          rcases List.mem_append.mp hc with hc | hc
          · exact hni2 (List.Sublist.subset (List.takeWhile_sublist _) hc)
          · rcases List.mem_cons.mp hc with hc | hc
            · exact hy hc
            · obtain ⟨gz, hgz, hgzle⟩ := gc_g_le hSB hchainu gu hgu _ hc
              rw [hgx2] at hgz
              have hgzeq : gz = gx2 := Option.some.inj hgz.symm
              omega
        by_cases hu2x : u2 = (v, some line)
        · have hgu2x : gu2 = gxo := by
            rw [hu2x] at hgu2
            rw [hgu2] at hgxo
            exact Option.some.inj hgxo
          refine GoodChain.step ih hp2y he2
            (by rw [hu2x]; exact lookupA_setA_self _ _ _) hg2y ?_ hnotin2
          have := hle2
          omega
        · exact GoodChain.step ih hp2y he2
            (by rw [lookupA_setA_ne _ _ _ _ hu2x]; exact hgu2) hg2y hle2 hnotin2
      · -- the updated state is not on this chain at all
        have hnotin : ((v, some line) : SState) ∉ (v2, some line2) :: L2 := by
          intro hc
          rcases List.mem_cons.mp hc with hc | hc
          · exact hy hc.symm
          · exact hmem hc
        rw [if_neg hnotin]
        rw [if_neg hmem] at ih
        have hu2L2 : u2 ∈ L2 := by
          obtain ⟨L3, hL3⟩ := gc_head hprev
          rw [hL3]
          exact List.mem_cons_self _ _
        have hu2x : u2 ≠ (v, some line) := fun hc => hmem (hc ▸ hu2L2)
        exact GoodChain.step ih hp2y he2
          (by rw [lookupA_setA_ne _ _ _ _ hu2x]; exact hgu2)
          hg2y hle2 hni2

theorem mem_setA {α β : Type} [DecidableEq α] {l : List (α × β)} {a : α} {b : β}
    {p : α × β} (h : p ∈ setA l a b) : p = (a, b) ∨ p ∈ l := by
  induction l with
  | nil => simpa [setA] using h
  | cons hd rest ih =>
    obtain ⟨k, v⟩ := hd
    by_cases hk : k = a
    · subst hk
      simp only [setA, eq_self_iff_true, if_true, List.mem_cons] at h
      rcases h with h | h
      · exact Or.inl h
      · exact Or.inr (List.mem_cons_of_mem _ h)
    · simp only [setA, if_neg hk, List.mem_cons] at h
      rcases h with h | h
      · exact Or.inr (h ▸ List.mem_cons_self _ _)
      · rcases ih h with h2 | h2
        · exact Or.inl h2
        · exact Or.inr (List.mem_cons_of_mem _ h2)

theorem setA_length_of_mem {α β : Type} [DecidableEq α] (l : List (α × β)) (a : α) (b : β)
    (h : a ∈ l.map Prod.fst) : (setA l a b).length = l.length := by
  have h2 := congrArg List.length (setA_map_fst_mem l a b h)
  simpa using h2

theorem setA_length_of_not_mem {α β : Type} [DecidableEq α] (l : List (α × β)) (a : α) (b : β)
    (h : a ∉ l.map Prod.fst) : (setA l a b).length = l.length + 1 := by
  have h2 := congrArg List.length (setA_map_fst_not_mem l a b h)
  simpa using h2

theorem lookupA_setA_isSome {α β : Type} [DecidableEq α] (l : List (α × β)) (a z : α)
    (b : β) (h : (lookupA l z).isSome = true) :
    (lookupA (setA l a b) z).isSome = true := by
  by_cases hz : z = a
  · subst hz; rw [lookupA_setA_self]; rfl
  · rw [lookupA_setA_ne _ _ _ _ hz]; exact h

theorem g_len_le_allStates (kb : KnowledgeBase) (start : String)
    (g : List (SState × ℤ)) (hnd : (g.map Prod.fst).Nodup)
    (hsub : ∀ s ∈ g.map Prod.fst, s ∈ allStates kb start) :
    g.length ≤ (allStates kb start).length := by
  have h1 : (g.map Prod.fst).length = (g.map Prod.fst).toFinset.card :=
    (List.toFinset_card_of_nodup hnd).symm
  have h2 : (g.map Prod.fst).toFinset ⊆ (allStates kb start).toFinset := by
    intro z hz
    rw [List.mem_toFinset] at hz ⊢
    exact hsub z hz
  calc g.length = (g.map Prod.fst).length := (List.length_map g Prod.fst).symm
    _ = (g.map Prod.fst).toFinset.card := h1
    _ ≤ (allStates kb start).toFinset.card := Finset.card_le_card h2
    _ ≤ (allStates kb start).length := (allStates kb start).toFinset_card_le

theorem sum_pot_setA (B : ℕ) (g : List (SState × ℤ)) (s : SState) (v : ℤ)
    (l : List SState) (hnd : l.Nodup) (hs : s ∈ l) :
    (l.map (fun z => pot B (lookupA (setA g s v) z))).sum + pot B (lookupA g s)
      = (l.map (fun z => pot B (lookupA g z))).sum + pot B (some v) := by
  induction l with
  | nil => simp at hs
  | cons a rest ih =>
    have hnd2 := List.nodup_cons.mp hnd
    by_cases ha : a = s
    · subst ha
      have hrest : a ∉ rest := hnd2.1
      simp only [List.map_cons, List.sum_cons, lookupA_setA_self]
      have hcg : rest.map (fun z => pot B (lookupA (setA g a v) z)) =
          rest.map (fun z => pot B (lookupA g z)) := by
        apply List.map_congr_left
        intro z hz
        rw [lookupA_setA_ne _ _ _ _ (fun hc => hrest (by rw [← hc]; exact hz))]
      rw [hcg]
      omega
    · have hsrest : s ∈ rest := by
        rcases List.mem_cons.mp hs with h | h
        · exact absurd h.symm ha
        · exact h
      simp only [List.map_cons, List.sum_cons]
      rw [lookupA_setA_ne _ _ _ _ ha]
      have := ih hnd2.2 hsrest
      omega

theorem potSum_setA (kb : KnowledgeBase) (start : String) (g : List (SState × ℤ))
    (s : SState) (v : ℤ) (hs : s ∈ allStates kb start) :
    potSum kb start (setA g s v) + pot (costBound kb start) (lookupA g s)
      = potSum kb start g + pot (costBound kb start) (some v) :=
  sum_pot_setA _ g s v _ (allStates_nodup kb start) hs

theorem gc_update_newchain {kb : KnowledgeBase} {criterio start : String}
    {g : List (SState × ℤ)} {par : List (SState × Option SState)}
    (hSB : StepBounds kb criterio)
    {u : SState} {gu step : ℤ} {v line : String} {t : ℤ} {Lu : List SState}
    (hgu : lookupA g u = some gu)
    (he : (v, line, t) ∈ kb.neighbors u.1)
    (hstepval : stepVal kb criterio u.2 line t = step)
    (himp : lookupA g (v, some line) = none ∨
      ∃ gx0, lookupA g (v, some line) = some gx0 ∧ gu + step < gx0)
    (hchainu : GoodChain kb criterio start g par u Lu) :
    GoodChain kb criterio start (setA g (v, some line) (gu + step))
      (setA par (v, some line) (some u)) (v, some line) ((v, some line) :: Lu) := by
  have hstepnn : 0 ≤ step := hstepval ▸ stepVal_nonneg hSB (e := (v, line, t)) he
  have hxLu : ((v, some line) : SState) ∉ Lu := by
    intro hc
    obtain ⟨gz, hgz, hgzle⟩ := gc_g_le hSB hchainu gu hgu _ hc
    rcases himp with h | ⟨gx0, hgx0, hlt⟩
    · rw [h] at hgz; cases hgz
    · rw [hgx0] at hgz
      cases hgz
      omega
  have hux : u ≠ (v, some line) := by
    intro hc
    rcases himp with h | ⟨gx0, hgx0, hlt⟩
    · rw [← hc, hgu] at h; cases h
    · rw [← hc, hgu] at hgx0
      cases hgx0
      omega
  refine GoodChain.step (gc_preserve_not_mem hchainu hxLu) (lookupA_setA_self _ _ _) he
    (by rw [lookupA_setA_ne _ _ _ _ hux]; exact hgu)
    (lookupA_setA_self _ _ _) ?_ hxLu
  rw [hstepval]

theorem update_spec (kb : KnowledgeBase) (start criterio : String)
    (hGFL : GraphFromLinks kb) (hSB : StepBounds kb criterio)
    (u : SState) (gu step : ℤ) (v line : String) (t : ℤ) (pr : ℚ) (st : AState)
    (hgu : lookupA st.g_cost u = some gu)
    (he : (v, line, t) ∈ kb.neighbors u.1)
    (hstep : stepOf kb criterio u.2 line t = some step)
    (himp : lookupA st.g_cost (v, some line) = none ∨
      ∃ gx, lookupA st.g_cost (v, some line) = some gx ∧ gu + step < gx)
    (hInv : InvT kb start criterio st) :
    InvT kb start criterio
      ⟨st.openpq ++ [(((gu + step : ℤ) : ℚ) + pr, (v, some line))],
        setA st.g_cost (v, some line) (gu + step),
        setA st.parents (v, some line) (some u)⟩ ∧
    potSum kb start (setA st.g_cost (v, some line) (gu + step))
      < potSum kb start st.g_cost := by
  obtain ⟨pq, g, par⟩ := st
  simp only at hgu himp ⊢
  have hbounds := hSB u.1 u.2 (v, line, t) he step hstep
  have hstepnn : 0 ≤ step := hbounds.1
  have hstepub : step ≤ (maxStepN kb : ℤ) := hbounds.2
  have hmemu : (u, gu) ∈ g := lookupA_mem hgu
  have hgunn : 0 ≤ gu := hInv.gNonneg (u, gu) hmemu
  have hguub : gu ≤ ((g.length : ℤ) - 1) * (maxStepN kb : ℤ) := hInv.gBound (u, gu) hmemu
  have hxall : ((v, some line) : SState) ∈ allStates kb start :=
    target_mem_allStates start hGFL (e := (v, line, t)) he
  have hstepval : stepVal kb criterio u.2 line t = step := by
    unfold stepVal
    rw [hstep]
    rfl
  have hxne : ((v, some line) : SState) ≠ (start, none) := by simp
  -- key-set case split
  by_cases hx : ((v, some line) : SState) ∈ g.map Prod.fst
  · -- the state already has a stored cost
    obtain ⟨gx, hgx, hlt⟩ : ∃ gx, lookupA g (v, some line) = some gx ∧ gu + step < gx := by
      rcases himp with h | h
      · rw [lookupA_eq_none_iff] at h
        exact absurd hx h
      · exact h
    have hkeysg : (setA g (v, some line) (gu + step)).map Prod.fst = g.map Prod.fst :=
      setA_map_fst_mem _ _ _ hx
    have hxp : ((v, some line) : SState) ∈ par.map Prod.fst := by
      rw [hInv.keysEq]; exact hx
    have hkeysp : (setA par (v, some line) (some u)).map Prod.fst = par.map Prod.fst :=
      setA_map_fst_mem _ _ _ hxp
    have hlen : (setA g (v, some line) (gu + step)).length = g.length :=
      setA_length_of_mem _ _ _ hx
    refine ⟨⟨?_, ?_, ?_, ?_, ?_, ?_, ?_, ?_, ?_⟩, ?_⟩
    · simp only
      rw [hkeysg, hkeysp]
      exact hInv.keysEq
    · simp only
      rw [hkeysg]
      exact hInv.keysNd
    · simp only
      rw [hkeysg]
      exact hInv.keysSub
    · simp only
      intro pe hpe
      rcases List.mem_append.mp hpe with hpe | hpe
      · exact lookupA_setA_isSome _ _ _ _ (hInv.pqG pe hpe)
      · simp only [List.mem_singleton] at hpe
        subst hpe
        simp only [lookupA_setA_self]
        rfl
    · simp only
      intro p hp
      rcases mem_setA hp with hp | hp
      · subst hp; simp only; omega
      · exact hInv.gNonneg p hp
    · simp only
      rw [hlen]
      intro p hp
      rcases mem_setA hp with hp | hp
      · subst hp
        simp only
        have := hInv.gBound ((v, some line), gx) (lookupA_mem hgx)
        simp only at this
        omega
      · exact hInv.gBound p hp
    · simp only
      rw [lookupA_setA_ne _ _ _ _ (Ne.symm hxne)]
      exact hInv.gStart
    · simp only
      intro p hp
      rcases mem_setA hp with hp | hp
      · subst hp
        simp only
        constructor
        · intro hc; cases hc
        · intro hc; exact absurd hc hxne
      · exact hInv.parNone p hp
    · simp only
      intro p hp
      obtain ⟨Lu, hLu⟩ := hInv.chain (u, gu) hmemu
      rcases mem_setA hp with hp | hp
      · subst hp
        exact ⟨_, gc_update_newchain hSB hgu he hstepval himp hLu⟩
      · obtain ⟨L, hL⟩ := hInv.chain p hp
        exact ⟨_, gc_update_chain hSB hgu he hstepval himp hLu hL⟩
    · -- potential strictly decreases
      have heq := potSum_setA kb start g (v, some line) (gu + step) hxall
      rw [hgx] at heq
      have hlt2 : pot (costBound kb start) (some (gu + step))
          < pot (costBound kb start) (some gx) := by
        simp only [pot]
        omega
      simp only [pot] at heq hlt2
      omega
  · -- a brand new state
    have hnone : lookupA g (v, some line) = none := (lookupA_eq_none_iff _ _).mpr hx
    have hkeysg : (setA g (v, some line) (gu + step)).map Prod.fst
        = g.map Prod.fst ++ [(v, some line)] := setA_map_fst_not_mem _ _ _ hx
    have hxp : ((v, some line) : SState) ∉ par.map Prod.fst := by
      rw [hInv.keysEq]; exact hx
    have hkeysp : (setA par (v, some line) (some u)).map Prod.fst
        = par.map Prod.fst ++ [(v, some line)] := setA_map_fst_not_mem _ _ _ hxp
    have hlen : (setA g (v, some line) (gu + step)).length = g.length + 1 :=
      setA_length_of_not_mem _ _ _ hx
    have hlenle : g.length + 1 ≤ (allStates kb start).length := by
      have := g_len_le_allStates kb start (setA g (v, some line) (gu + step))
        (by rw [hkeysg]
            rw [List.nodup_append]
            refine ⟨hInv.keysNd, List.nodup_singleton _, ?_⟩
            intro z hz hz2
            simp only [List.mem_singleton] at hz2
            subst hz2
            exact hx hz)
        (by rw [hkeysg]
            intro z hz
            rcases List.mem_append.mp hz with hz | hz
            · exact hInv.keysSub z hz
            · simp only [List.mem_singleton] at hz
              subst hz
              exact hxall)
      rw [hlen] at this
      exact this
    refine ⟨⟨?_, ?_, ?_, ?_, ?_, ?_, ?_, ?_, ?_⟩, ?_⟩
    · simp only
      rw [hkeysg, hkeysp, hInv.keysEq]
    · simp only
      rw [hkeysg, List.nodup_append]
      refine ⟨hInv.keysNd, List.nodup_singleton _, ?_⟩
      intro z hz hz2
      simp only [List.mem_singleton] at hz2
      subst hz2
      exact hx hz
    · simp only
      rw [hkeysg]
      intro z hz
      rcases List.mem_append.mp hz with hz | hz
      · exact hInv.keysSub z hz
      · simp only [List.mem_singleton] at hz
        subst hz
        exact hxall
    · simp only
      intro pe hpe
      rcases List.mem_append.mp hpe with hpe | hpe
      · exact lookupA_setA_isSome _ _ _ _ (hInv.pqG pe hpe)
      · simp only [List.mem_singleton] at hpe
        subst hpe
        simp only [lookupA_setA_self]
        rfl
    · simp only
      intro p hp
      rcases mem_setA hp with hp | hp
      · subst hp; simp only; omega
      · exact hInv.gNonneg p hp
    · simp only
      rw [hlen]
      intro p hp
      have hmsnn : (0 : ℤ) ≤ (maxStepN kb : ℤ) := Int.natCast_nonneg _
      rcases mem_setA hp with hp | hp
      · subst hp
        simp only
        push_cast
        nlinarith
      · have h1 := hInv.gBound p hp
        have hmsnn : (0 : ℤ) ≤ (maxStepN kb : ℤ) := Int.natCast_nonneg _
        have h2 : ((g.length : ℤ) - 1) * (maxStepN kb : ℤ)
            ≤ (((g.length + 1 : ℕ) : ℤ) - 1) * (maxStepN kb : ℤ) := by
          push_cast
          nlinarith
        exact le_trans h1 h2
    · simp only
      rw [lookupA_setA_ne _ _ _ _ (Ne.symm hxne)]
      exact hInv.gStart
    · simp only
      intro p hp
      rcases mem_setA hp with hp | hp
      · subst hp
        simp only
        constructor
        · intro hc; cases hc
        · intro hc; exact absurd hc hxne
      · exact hInv.parNone p hp
    · simp only
      intro p hp
      obtain ⟨Lu, hLu⟩ := hInv.chain (u, gu) hmemu
      rcases mem_setA hp with hp | hp
      · subst hp
        exact ⟨_, gc_update_newchain hSB hgu he hstepval himp hLu⟩
      · obtain ⟨L, hL⟩ := hInv.chain p hp
        exact ⟨_, gc_update_chain hSB hgu he hstepval himp hLu hL⟩
    · -- potential strictly decreases: a fresh state loses the top potential
      have heq := potSum_setA kb start g (v, some line) (gu + step) hxall
      rw [hnone] at heq
      have htvle : gu + step ≤ ((g.length : ℤ)) * (maxStepN kb : ℤ) := by
        have hmsnn : (0 : ℤ) ≤ (maxStepN kb : ℤ) := Int.natCast_nonneg _
        nlinarith
      have htvle2 : gu + step ≤ (costBound kb start : ℤ) := by
        unfold costBound
        have hmsnn : (0 : ℤ) ≤ (maxStepN kb : ℤ) := Int.natCast_nonneg _
        have : ((g.length : ℤ)) * (maxStepN kb : ℤ)
            ≤ ((allStates kb start).length : ℤ) * (maxStepN kb : ℤ) := by
          have : ((g.length : ℤ)) ≤ ((allStates kb start).length : ℤ) := by
            exact_mod_cast Nat.le_of_succ_le hlenle
          nlinarith
        push_cast
        omega
      have hlt2 : pot (costBound kb start) (some (gu + step))
          < pot (costBound kb start) none := by
        simp only [pot]
        have : (gu + step).toNat ≤ costBound kb start := Int.toNat_le.mpr htvle2
        omega
      simp only [pot] at heq hlt2
      omega

theorem relaxOne_cases (hav : ℚ × ℚ → ℚ × ℚ → ℚ) (kb : KnowledgeBase)
    (goal criterio : String) (u : SState) (e : String × String × ℤ) (st : AState)
    (gu : ℤ) (hgu : lookupA st.g_cost u = some gu) :
    (stepOf kb criterio u.2 e.2.1 e.2.2 = none ∧
      relaxOne hav kb goal criterio u e st = .error .valueError) ∨
    (∃ step gv, stepOf kb criterio u.2 e.2.1 e.2.2 = some step ∧
      lookupA st.g_cost (e.1, some e.2.1) = some gv ∧ ¬(gu + step < gv) ∧
      relaxOne hav kb goal criterio u e st = .ok st) ∨
    (∃ step, stepOf kb criterio u.2 e.2.1 e.2.2 = some step ∧
      (lookupA st.g_cost (e.1, some e.2.1) = none ∨
        ∃ gv, lookupA st.g_cost (e.1, some e.2.1) = some gv ∧ gu + step < gv) ∧
      ((criterio = "tiempo" ∧ lookupA kb.data.stations e.1 = none ∧
          relaxOne hav kb goal criterio u e st = .error (.keyError e.1)) ∨
       (criterio = "tiempo" ∧ (lookupA kb.data.stations e.1).isSome = true ∧
          lookupA kb.data.stations goal = none ∧
          relaxOne hav kb goal criterio u e st = .error (.keyError goal)) ∨
       (∃ pr, (criterio ≠ "tiempo" → pr = 0) ∧
          relaxOne hav kb goal criterio u e st = .ok
            ⟨st.openpq ++ [(((gu + step : ℤ) : ℚ) + pr, (e.1, some e.2.1))],
              setA st.g_cost (e.1, some e.2.1) (gu + step),
              setA st.parents (e.1, some e.2.1) (some u)⟩))) := by
  cases hstep : stepOf kb criterio u.2 e.2.1 e.2.2 with
  | none =>
    refine Or.inl ⟨rfl, ?_⟩
    unfold relaxOne
    rw [hstep]
  | some step =>
    cases hlook : lookupA st.g_cost (e.1, some e.2.1) with
    | some gv =>
      by_cases hb : gu + step < gv
      · refine Or.inr (Or.inr ⟨step, rfl, Or.inr ⟨gv, rfl, hb⟩, ?_⟩)
        by_cases hcr : criterio = "tiempo"
        · subst hcr
          cases hst : lookupA kb.data.stations e.1 with
          | none =>
            refine Or.inl ⟨rfl, rfl, ?_⟩
            unfold relaxOne
            rw [hstep, hgu]
            dsimp only
            rw [hlook]
            dsimp only
            rw [if_pos (by exact decide_eq_true hb)]
            simp only [if_pos rfl, hfun, KnowledgeBase.coords, hst]
            rfl
          | some c1 =>
            cases hgo : lookupA kb.data.stations goal with
            | none =>
              refine Or.inr (Or.inl ⟨rfl, rfl, rfl, ?_⟩)
              unfold relaxOne
              rw [hstep, hgu]
              dsimp only
              rw [hlook]
              dsimp only
              rw [if_pos (by exact decide_eq_true hb)]
              simp only [if_pos rfl, hfun, KnowledgeBase.coords, hst, hgo]
              rfl
            | some c2 =>
              refine Or.inr (Or.inr ⟨hav c1 c2 * 2, by intro h; exact absurd rfl h, ?_⟩)
              unfold relaxOne
              rw [hstep, hgu]
              dsimp only
              rw [hlook]
              dsimp only
              rw [if_pos (by exact decide_eq_true hb)]
              simp only [if_pos rfl, hfun, KnowledgeBase.coords, hst, hgo]
              rfl
        · refine Or.inr (Or.inr ⟨0, fun _ => rfl, ?_⟩)
          unfold relaxOne
          rw [hstep, hgu]
          dsimp only
          rw [hlook]
          dsimp only
          rw [if_pos (by exact decide_eq_true hb), if_neg hcr]
          rfl
      · refine Or.inr (Or.inl ⟨step, gv, rfl, rfl, hb, ?_⟩)
        unfold relaxOne
        rw [hstep, hgu]
        dsimp only
        rw [hlook]
        dsimp only
        rw [if_neg (by simpa using hb)]
        rfl
    | none =>
      refine Or.inr (Or.inr ⟨step, rfl, Or.inl rfl, ?_⟩)
      by_cases hcr : criterio = "tiempo"
      · subst hcr
        cases hst : lookupA kb.data.stations e.1 with
        | none =>
          refine Or.inl ⟨rfl, rfl, ?_⟩
          unfold relaxOne
          rw [hstep, hgu]
          dsimp only
          rw [hlook]
          dsimp only
          simp only [if_pos rfl, if_true, hfun, KnowledgeBase.coords, hst]
          rfl
        | some c1 =>
          cases hgo : lookupA kb.data.stations goal with
          | none =>
            refine Or.inr (Or.inl ⟨rfl, rfl, rfl, ?_⟩)
            unfold relaxOne
            rw [hstep, hgu]
            dsimp only
            rw [hlook]
            dsimp only
            simp only [if_pos rfl, if_true, hfun, KnowledgeBase.coords, hst, hgo]
            rfl
          | some c2 =>
            refine Or.inr (Or.inr ⟨hav c1 c2 * 2, by intro h; exact absurd rfl h, ?_⟩)
            unfold relaxOne
            rw [hstep, hgu]
            dsimp only
            rw [hlook]
            dsimp only
            simp only [if_pos rfl, if_true, hfun, KnowledgeBase.coords, hst, hgo]
            rfl
      · refine Or.inr (Or.inr ⟨0, fun _ => rfl, ?_⟩)
        unfold relaxOne
        rw [hstep, hgu]
        dsimp only
        rw [hlook]
        dsimp only
        rw [if_neg hcr]
        rfl

theorem update_specO (kb : KnowledgeBase) (start goal criterio : String)
    (u : SState) (gu step : ℤ) (v line : String) (t : ℤ) (st : AState)
    (closedW closedR : List SState)
    (hgu : lookupA st.g_cost u = some gu)
    (himp : lookupA st.g_cost (v, some line) = none ∨
      ∃ gx, lookupA st.g_cost (v, some line) = some gx ∧ gu + step < gx)
    (hInvT : InvT kb start criterio st)
    (hInvO : InvO kb start goal criterio closedW closedR st) :
    InvO kb start goal criterio closedW closedR
      ⟨st.openpq ++ [(((gu + step : ℤ) : ℚ) + 0, (v, some line))],
        setA st.g_cost (v, some line) (gu + step),
        setA st.parents (v, some line) (some u)⟩ := by
  obtain ⟨pq, g, par⟩ := st
  simp only at hgu himp ⊢
  refine ⟨?_, ?_, ?_, ?_⟩
  · -- pqLe
    simp only
    intro pe hpe gv hgv
    rcases List.mem_append.mp hpe with hpe | hpe
    · by_cases hx : pe.2 = (v, some line)
      · rw [hx, lookupA_setA_self] at hgv
        cases hgv
        obtain ⟨gx, hgx, hlt⟩ : ∃ gx, lookupA g (v, some line) = some gx ∧ gu + step < gx := by
          rcases himp with h | h
          · exfalso
            have hS := hInvT.pqG pe hpe
            rw [hx, h] at hS
            simp at hS
          · exact h
        have hle := hInvO.pqLe pe hpe gx (hx ▸ hgx)
        have : ((gu + step : ℤ) : ℚ) < (gx : ℚ) := by exact_mod_cast hlt
        linarith
      · rw [lookupA_setA_ne _ _ _ _ hx] at hgv
        exact hInvO.pqLe pe hpe gv hgv
    · simp only [List.mem_singleton] at hpe
      subst hpe
      simp only [lookupA_setA_self] at hgv
      cases hgv
      simp
  · -- pqWitness
    simp only
    intro p hp
    rcases mem_setA hp with hp | hp
    · subst hp
      refine Or.inr ?_
      simp only
      apply List.mem_append.mpr
      refine Or.inr ?_
      simp
    · rcases hInvO.pqWitness p hp with h | h
      · exact Or.inl h
      · exact Or.inr (List.mem_append.mpr (Or.inl h))
  · -- closedRel
    simp only
    intro s hs gv hgv e he2 step2 hstep2
    by_cases hsx : s = (v, some line)
    · rw [hsx, lookupA_setA_self] at hgv
      cases hgv
      refine Or.inr ?_
      apply List.mem_append.mpr
      refine Or.inr ?_
      rw [hsx]
      simp
    · rw [lookupA_setA_ne _ _ _ _ hsx] at hgv
      rcases hInvO.closedRel s hs gv hgv e he2 step2 hstep2 with ⟨gw, hgw, hgwle⟩ | h
      · by_cases hzx : ((e.1, some e.2.1) : SState) = (v, some line)
        · refine Or.inl ⟨gu + step, by rw [hzx, lookupA_setA_self], ?_⟩
          rcases himp with h | ⟨gx, hgx, hlt⟩
          · rw [hzx, h] at hgw
            cases hgw
          · rw [hzx, hgx] at hgw
            cases hgw
            omega
        · exact Or.inl ⟨gw, by rw [lookupA_setA_ne _ _ _ _ hzx]; exact hgw, hgwle⟩
      · exact Or.inr (List.mem_append.mpr (Or.inl h))
  · exact hInvO.closedNotGoal

theorem relaxList_cons_err (hav : ℚ × ℚ → ℚ × ℚ → ℚ) (kb : KnowledgeBase)
    (goal criterio : String) (u : SState) (e : String × String × ℤ)
    (rest : List (String × String × ℤ)) (st : AState) (err : AErr)
    (h : relaxOne hav kb goal criterio u e st = .error err) :
    relaxList hav kb goal criterio u (e :: rest) st = .error err := by
  unfold relaxList
  rw [h]
  rfl

theorem relaxList_cons_ok (hav : ℚ × ℚ → ℚ × ℚ → ℚ) (kb : KnowledgeBase)
    (goal criterio : String) (u : SState) (e : String × String × ℤ)
    (rest : List (String × String × ℤ)) (st st1 : AState)
    (h : relaxOne hav kb goal criterio u e st = .ok st1) :
    relaxList hav kb goal criterio u (e :: rest) st =
      relaxList hav kb goal criterio u rest st1 := by
  simp only [relaxList]
  rw [h]
  rfl

theorem stepOf_none_facts (kb : KnowledgeBase) (criterio : String) (ll : Option String)
    (line : String) (t : ℤ) (h : stepOf kb criterio ll line t = none) :
    criterio ≠ "tiempo" ∧ criterio ≠ "saltos" ∧ criterio ≠ "transbordos" := by
  unfold stepOf at h
  dsimp only at h
  split_ifs at h with h1 h2 h3
  exact ⟨h1, h2, h3⟩

theorem relaxList_spec (hav : ℚ × ℚ → ℚ × ℚ → ℚ) (kb : KnowledgeBase)
    (goal criterio start : String)
    (hGFL : GraphFromLinks kb) (hSB : StepBounds kb criterio)
    (u : SState) (gu : ℤ) (closedW closedR : List SState) :
    ∀ (edges : List (String × String × ℤ)) (st : AState),
      (∀ e ∈ edges, e ∈ kb.neighbors u.1) →
      lookupA st.g_cost u = some gu →
      InvT kb start criterio st →
      (∀ err, relaxList hav kb goal criterio u edges st = .error err →
        ErrCaseOf kb goal criterio err) ∧
      (∀ st2, relaxList hav kb goal criterio u edges st = .ok st2 →
        InvT kb start criterio st2 ∧
        lookupA st2.g_cost u = some gu ∧
        (∀ pe ∈ st.openpq, pe ∈ st2.openpq) ∧
        st2.openpq.length + potSum kb start st2.g_cost ≤
          st.openpq.length + potSum kb start st.g_cost ∧
        (∀ z gz2, lookupA st2.g_cost z = some gz2 →
          lookupA st.g_cost z = none ∨
          ∃ gz, lookupA st.g_cost z = some gz ∧ gz2 ≤ gz) ∧
        (∀ z, (lookupA st.g_cost z).isSome = true →
          (lookupA st2.g_cost z).isSome = true) ∧
        (∀ e ∈ edges, ∀ step, stepOf kb criterio u.2 e.2.1 e.2.2 = some step →
          ∃ gw, lookupA st2.g_cost (e.1, some e.2.1) = some gw ∧ gw ≤ gu + step) ∧
        ((criterio = "saltos" ∨ criterio = "transbordos") →
          InvO kb start goal criterio closedW closedR st →
          InvO kb start goal criterio closedW closedR st2)) := by
  intro edges
  induction edges with
  | nil =>
    intro st hedges hgu hInvT
    refine ⟨?_, ?_⟩
    · intro err herr
      cases herr
    · intro st2 hok
      have hst : st = st2 := by
        have : (Except.ok st : Except AErr AState) = .ok st2 := hok
        exact Except.ok.inj this
      subst hst
      exact ⟨hInvT, hgu, fun pe hpe => hpe, le_refl _,
        fun z gz2 h => Or.inr ⟨gz2, h, le_refl _⟩, fun z h => h,
        fun e he => absurd he (List.not_mem_nil e), fun _ h => h⟩
  | cons e rest ih =>
    intro st hedges hgu hInvT
    have heu : e ∈ kb.neighbors u.1 := hedges e (List.mem_cons_self e rest)
    have hedges2 : ∀ e2 ∈ rest, e2 ∈ kb.neighbors u.1 :=
      fun e2 he2 => hedges e2 (List.mem_cons_of_mem e he2)
    rcases relaxOne_cases hav kb goal criterio u e st gu hgu with
      ⟨hstepnone, hrel⟩ |
      ⟨step, gv, hstep, hlook, hnlt, hrel⟩ |
      ⟨step, hstep, himp, hsub⟩
    · -- unsupported criterion: the first relaxation raises ValueError
      refine ⟨?_, ?_⟩
      · intro err herr
        rw [relaxList_cons_err hav kb goal criterio u e rest st _ hrel] at herr
        injection herr with herr2
        subst herr2
        exact stepOf_none_facts kb criterio u.2 e.2.1 e.2.2 hstepnone
      · intro st2 hok
        rw [relaxList_cons_err hav kb goal criterio u e rest st _ hrel] at hok
        cases hok
    · -- no improvement: the state is unchanged
      have hrw := relaxList_cons_ok hav kb goal criterio u e rest st st hrel
      obtain ⟨iherr, ihok⟩ := ih st hedges2 hgu hInvT
      refine ⟨?_, ?_⟩
      · intro err herr
        rw [hrw] at herr
        exact iherr err herr
      · intro st2 hok
        rw [hrw] at hok
        obtain ⟨h1, h2, h3, h4, h5, h6, h7, h8⟩ := ihok st2 hok
        refine ⟨h1, h2, h3, h4, h5, h6, ?_, h8⟩
        intro e2 he2 step2 hstep2
        rcases List.mem_cons.mp he2 with he2 | he2
        · subst he2
          rw [hstep] at hstep2
          injection hstep2 with hs2
          rw [← hs2]
          have hvle : gv ≤ gu + step := by omega
          have hsm := h6 (e2.1, some e2.2.1) (by rw [hlook]; rfl)
          obtain ⟨gw, hgw⟩ := Option.isSome_iff_exists.mp hsm
          rcases h5 (e2.1, some e2.2.1) gw hgw with hnone | ⟨gz, hgz, hle2⟩
          · rw [hlook] at hnone
            cases hnone
          · rw [hlook] at hgz
            injection hgz with hgz2
            subst hgz2
            exact ⟨gw, hgw, le_trans hle2 hvle⟩
        · exact h7 e2 he2 step2 hstep2
    · -- strict improvement
      rcases hsub with ⟨hcr, hstnone, hrel⟩ | ⟨hcr, _, hgonone, hrel⟩ |
        ⟨pr, hpr, hrel⟩
      · -- KeyError on the neighbor station (tiempo, missing coordinates)
        refine ⟨?_, ?_⟩
        · intro err herr
          rw [relaxList_cons_err hav kb goal criterio u e rest st _ hrel] at herr
          injection herr with herr2
          subst herr2
          exact ⟨hcr, hstnone, Or.inr ⟨u.1, e, heu, rfl⟩⟩
        · intro st2 hok
          rw [relaxList_cons_err hav kb goal criterio u e rest st _ hrel] at hok
          cases hok
      · -- KeyError on the goal station (tiempo, missing coordinates)
        refine ⟨?_, ?_⟩
        · intro err herr
          rw [relaxList_cons_err hav kb goal criterio u e rest st _ hrel] at herr
          injection herr with herr2
          subst herr2
          exact ⟨hcr, hgonone, Or.inl rfl⟩
        · intro st2 hok
          rw [relaxList_cons_err hav kb goal criterio u e rest st _ hrel] at hok
          cases hok
      · -- the update goes through
        have hbounds := hSB u.1 u.2 e heu step hstep
        have hux : u ≠ ((e.1, some e.2.1) : SState) := by
          intro hux
          rcases himp with hn | ⟨gx, hgx, hlt⟩
          · rw [← hux, hgu] at hn
            cases hn
          · rw [← hux, hgu] at hgx
            injection hgx with hgx2
            omega
        have hup := update_spec kb start criterio hGFL hSB u gu step e.1 e.2.1 e.2.2
          pr st hgu heu hstep himp hInvT
        obtain ⟨hInvT1, hdec⟩ := hup
        have hgu1 : lookupA (setA st.g_cost (e.1, some e.2.1) (gu + step)) u = some gu := by
          rw [lookupA_setA_ne _ _ _ _ hux]
          exact hgu
        obtain ⟨iherr, ihok⟩ := ih
          ⟨st.openpq ++ [(((gu + step : ℤ) : ℚ) + pr, (e.1, some e.2.1))],
            setA st.g_cost (e.1, some e.2.1) (gu + step),
            setA st.parents (e.1, some e.2.1) (some u)⟩
          hedges2 hgu1 hInvT1
        have hrw := relaxList_cons_ok hav kb goal criterio u e rest st _ hrel
        refine ⟨?_, ?_⟩
        · intro err herr
          rw [hrw] at herr
          exact iherr err herr
        · intro st2 hok
          rw [hrw] at hok
          obtain ⟨h1, h2, h3, h4, h5, h6, h7, h8⟩ := ihok st2 hok
          refine ⟨h1, h2, ?_, ?_, ?_, ?_, ?_, ?_⟩
          · intro pe hpe
            exact h3 pe (by simp only; exact List.mem_append.mpr (Or.inl hpe))
          · have hlen : (st.openpq ++
                [(((gu + step : ℤ) : ℚ) + pr, ((e.1, some e.2.1) : SState))]).length =
                st.openpq.length + 1 := by
              simp
            simp only at h4
            rw [hlen] at h4
            omega
          · intro z gz2 hz2
            rcases h5 z gz2 hz2 with hn | ⟨gz1, hgz1, hle1⟩
            · simp only at hn
              by_cases hzx : z = ((e.1, some e.2.1) : SState)
              · rw [hzx, lookupA_setA_self] at hn
                cases hn
              · rw [lookupA_setA_ne _ _ _ _ hzx] at hn
                exact Or.inl hn
            · simp only at hgz1
              by_cases hzx : z = ((e.1, some e.2.1) : SState)
              · rw [hzx, lookupA_setA_self] at hgz1
                injection hgz1 with hgz2
                subst hgz2
                rcases himp with hn | ⟨gx, hgx, hlt⟩
                · rw [hzx]
                  exact Or.inl hn
                · rw [hzx]
                  exact Or.inr ⟨gx, hgx, by omega⟩
              · rw [lookupA_setA_ne _ _ _ _ hzx] at hgz1
                exact Or.inr ⟨gz1, hgz1, hle1⟩
          · intro z hz
            exact h6 z (by simp only; exact lookupA_setA_isSome _ _ _ _ hz)
          · intro e2 he2 step2 hstep2
            rcases List.mem_cons.mp he2 with he2 | he2
            · subst he2
              rw [hstep] at hstep2
              injection hstep2 with hs2
              rw [← hs2]
              have hsm := h6 (e2.1, some e2.2.1)
                (by simp only; rw [lookupA_setA_self]; rfl)
              obtain ⟨gw, hgw⟩ := Option.isSome_iff_exists.mp hsm
              rcases h5 (e2.1, some e2.2.1) gw hgw with hn | ⟨gz1, hgz1, hle1⟩
              · simp only at hn
                rw [lookupA_setA_self] at hn
                cases hn
              · simp only at hgz1
                rw [lookupA_setA_self] at hgz1
                injection hgz1 with hgz2
                subst hgz2
                exact ⟨gw, hgw, hle1⟩
            · exact h7 e2 he2 step2 hstep2
          · intro hcr hInvO
            have hne : criterio ≠ "tiempo" := by
              rcases hcr with h | h <;> subst h <;> decide
            have hpr0 : pr = 0 := hpr hne
            apply h8 hcr
            rw [hpr0]
            exact update_specO kb start goal criterio u gu step e.1 e.2.1 e.2.2 st
              closedW closedR hgu himp hInvT hInvO

theorem astarLoop_pos (hav : ℚ × ℚ → ℚ × ℚ → ℚ) (kb : KnowledgeBase)
    (goal criterio : String) (fuel : ℕ) (st : AState) (h : 0 < fuel) :
    astarLoop hav kb goal criterio fuel st =
      match popMin st.openpq with
      | none => some (.ok none)
      | some ((_, u), pq2) =>
        if u.1 = goal then
          match lookupA st.g_cost u with
          | none => some (.error (.keyErrorState u))
          | some gu =>
            match parChain st.parents (st.parents.length + 1) u with
            | none => none
            | some (.error e) => some (.error e)
            | some (.ok L) => some (.ok (some (L.reverse, gu)))
        else
          match relaxList hav kb goal criterio u (kb.neighbors u.1)
              { st with openpq := pq2 } with
          | .error e => some (.error e)
          | .ok st2 => astarLoop hav kb goal criterio (fuel - 1) st2 := by
  cases fuel with
  | zero => exact absurd h (lt_irrefl 0)
  | succ n => rfl

theorem astarLoop_total (hav : ℚ × ℚ → ℚ × ℚ → ℚ) (kb : KnowledgeBase)
    (goal criterio start : String)
    (hGFL : GraphFromLinks kb) (hSB : StepBounds kb criterio) :
    ∀ (fuel : ℕ) (st : AState), InvT kb start criterio st →
      muA kb start st < fuel →
      ∃ r, astarLoop hav kb goal criterio fuel st = some r ∧
        (r = .ok none ∨
         (∃ P c, r = .ok (some (P, c)) ∧ 0 ≤ c ∧
           ∃ E, walkOK kb (start, none) E = true ∧
             (walkEnd (start, none) E).1 = goal ∧
             P = chainOf (start, none) E ∧
             walkCost kb criterio (start, none) E ≤ c) ∨
         (∃ e, r = .error e ∧ ErrCaseOf kb goal criterio e)) := by
  intro fuel
  induction fuel with
  | zero =>
    intro st hInvT hmu
    exact absurd hmu (Nat.not_lt_zero _)
  | succ f ihf =>
    intro st hInvT hmu
    obtain ⟨pq, g, par⟩ := st
    have hunf := astarLoop_pos hav kb goal criterio (f + 1) ⟨pq, g, par⟩ (Nat.succ_pos f)
    cases hpop : popMin pq with
    | none =>
      rw [hpop] at hunf
      exact ⟨.ok none, hunf, Or.inl rfl⟩
    | some pr2 =>
      obtain ⟨⟨pri, u⟩, pq2⟩ := pr2
      rw [hpop] at hunf
      dsimp only at hunf
      have hperm := popMin_perm hpop
      have hm : ((pri, u) : ℚ × SState) ∈ pq :=
        hperm.mem_iff.mpr (List.mem_cons_self _ _)
      have hguS := hInvT.pqG (pri, u) hm
      obtain ⟨gu, hgu⟩ := Option.isSome_iff_exists.mp hguS
      by_cases hgoal : u.1 = goal
      · -- the goal is popped: reconstruct the parent chain
        rw [if_pos hgoal] at hunf
        have hmemg : (u, gu) ∈ g := lookupA_mem hgu
        obtain ⟨L, hgc⟩ := hInvT.chain (u, gu) hmemg
        have hLlen : L.length ≤ par.length + 1 :=
          le_trans (gc_length_le hgc) (Nat.le_succ _)
        have hpc := gc_parChain hgc (par.length + 1) hLlen
        rw [hgu] at hunf
        dsimp only at hunf
        rw [hpc] at hunf
        obtain ⟨E, hE1, hE2, hE3, hE4⟩ := gc_walk hSB hgc hInvT.gStart gu hgu
        refine ⟨.ok (some (L.reverse, gu)), hunf, Or.inr (Or.inl
          ⟨L.reverse, gu, rfl, hInvT.gNonneg (u, gu) hmemg, E, hE1, ?_, hE3.symm, hE4⟩)⟩
        rw [hE2]
        exact hgoal
      · -- a non-goal state is popped: relax all its neighbors and recurse
        rw [if_neg hgoal] at hunf
        have hlen := hperm.length_eq
        simp only [List.length_cons] at hlen
        have hInvT2 : InvT kb start criterio ⟨pq2, g, par⟩ :=
          ⟨hInvT.keysEq, hInvT.keysNd, hInvT.keysSub,
           fun pe hpe =>
             hInvT.pqG pe (hperm.mem_iff.mpr (List.mem_cons_of_mem _ hpe)),
           hInvT.gNonneg, hInvT.gBound, hInvT.gStart, hInvT.parNone, hInvT.chain⟩
        obtain ⟨herr, hok⟩ := relaxList_spec hav kb goal criterio start hGFL hSB
          u gu [] [] (kb.neighbors u.1) ⟨pq2, g, par⟩ (fun e he => he) hgu hInvT2
        cases hrel : relaxList hav kb goal criterio u (kb.neighbors u.1)
            ⟨pq2, g, par⟩ with
        | error e =>
          rw [hrel] at hunf
          exact ⟨.error e, hunf, Or.inr (Or.inr ⟨e, rfl, herr e hrel⟩)⟩
        | ok st2 =>
          rw [hrel] at hunf
          obtain ⟨hInvT3, _, _, h4, _⟩ := hok st2 hrel
          have hmu3 : muA kb start st2 < f := by
            simp only [muA] at hmu ⊢
            dsimp only at hmu h4
            omega
          obtain ⟨r, hr, hshape⟩ := ihf st2 hInvT3 hmu3
          refine ⟨r, ?_, hshape⟩
          rw [hunf]
          simpa using hr

theorem initState_invT (kb : KnowledgeBase) (start criterio : String) :
    InvT kb start criterio (initState start) := by
  refine ⟨rfl, by simp [initState], ?_, ?_, ?_, ?_, ?_, ?_, ?_⟩
  · intro s hs
    simp only [initState, List.map_cons, List.map_nil, List.mem_singleton] at hs
    subst hs
    exact start_mem_allStates kb start
  · intro pe hpe
    simp only [initState, List.mem_singleton] at hpe
    subst hpe
    simp [lookupA]
  · intro p hp
    simp only [initState, List.mem_singleton] at hp
    subst hp
    exact le_refl 0
  · intro p hp
    simp only [initState, List.mem_singleton] at hp
    subst hp
    simp [initState]
  · simp [initState, lookupA]
  · intro p hp
    simp only [initState, List.mem_singleton] at hp
    subst hp
    simp
  · intro p hp
    simp only [initState, List.mem_singleton] at hp
    subst hp
    exact ⟨[(start, none)], GoodChain.base (by simp [initState, lookupA])⟩

theorem potSum_init_le (kb : KnowledgeBase) (start : String) :
    potSum kb start (initState start).g_cost ≤
      (allStates kb start).length * (costBound kb start + 1) := by
  unfold potSum
  have hb : ∀ x ∈ (allStates kb start).map
      (fun s => pot (costBound kb start) (lookupA (initState start).g_cost s)),
      x ≤ costBound kb start + 1 := by
    intro x hx
    obtain ⟨s, hs, hxeq⟩ := List.mem_map.mp hx
    by_cases h : s = ((start, none) : SState)
    · rw [← hxeq, h]
      simp [initState, lookupA, pot]
    · have hnone : lookupA (initState start).g_cost s = none := by
        simp only [initState, lookupA]
        rw [if_neg (fun hc => h hc.symm)]
      rw [← hxeq, hnone]
      simp [pot]
  have hsum := List.sum_le_card_nsmul _ _ hb
  simpa using hsum

theorem muA_init_lt (kb : KnowledgeBase) (start : String) :
    muA kb start (initState start) < sufficientFuel kb start := by
  have hps := potSum_init_le kb start
  simp only [muA, sufficientFuel, costBound] at hps ⊢
  have hlen : (initState start).openpq.length = 1 := by simp [initState]
  rw [hlen]
  have hring : ((allStates kb start).length + 1) *
      ((allStates kb start).length * maxStepN kb + 2) =
      (allStates kb start).length * ((allStates kb start).length * maxStepN kb + 2) +
      ((allStates kb start).length * maxStepN kb + 2) := by ring
  have hmono : (allStates kb start).length * ((allStates kb start).length * maxStepN kb + 1) ≤
      (allStates kb start).length * ((allStates kb start).length * maxStepN kb + 2) :=
    Nat.mul_le_mul le_rfl (by omega)
  omega

theorem walk_end_target (kb : KnowledgeBase) :
    ∀ (E : List (String × String × ℤ)) (s : SState), walkOK kb s E = true →
      walkEnd s E = s ∨ ∃ u : String, ∃ e ∈ kb.neighbors u, (walkEnd s E).1 = e.1 := by
  intro E
  induction E with
  | nil =>
    intro s _
    exact Or.inl rfl
  | cons e rest ihE =>
    intro s hok
    simp only [walkOK, Bool.and_eq_true, decide_eq_true_eq] at hok
    obtain ⟨he, hrest⟩ := hok
    rcases ihE (e.1, some e.2.1) hrest with hend | ⟨u, e2, he2, heq⟩
    · refine Or.inr ⟨s.1, e, he, ?_⟩
      simp only [walkEnd, hend]
    · exact Or.inr ⟨u, e2, he2, heq⟩

theorem stepOf_total (kb : KnowledgeBase) (criterio : String)
    (hcr : criterio = "saltos" ∨ criterio = "transbordos") :
    ∀ (ll : Option String) (line : String) (t : ℤ),
      stepOf kb criterio ll line t = some (stepVal kb criterio ll line t) := by
  intro ll line t
  unfold stepVal
  cases hs : stepOf kb criterio ll line t with
  | some c => rfl
  | none =>
    exfalso
    obtain ⟨-, h2, h3⟩ := stepOf_none_facts kb criterio ll line t hs
    rcases hcr with h | h
    · exact h2 h
    · exact h3 h

theorem walkCost_nonneg {kb : KnowledgeBase} {criterio : String}
    (hSB : StepBounds kb criterio) :
    ∀ (E : List (String × String × ℤ)) (s : SState),
      walkOK kb s E = true → 0 ≤ walkCost kb criterio s E := by
  intro E
  induction E with
  | nil =>
    intro s _
    simp [walkCost]
  | cons e rest ih =>
    intro s hok
    simp only [walkOK, Bool.and_eq_true, decide_eq_true_eq] at hok
    obtain ⟨he, hrest⟩ := hok
    have h1 : 0 ≤ stepVal kb criterio s.2 e.2.1 e.2.2 := stepVal_nonneg hSB he
    have h2 := ih (e.1, some e.2.1) hrest
    simp only [walkCost]
    omega

theorem cut_aux (kb : KnowledgeBase) (start goal criterio : String)
    (closed : List SState) (st : AState)
    (hSB : StepBounds kb criterio)
    (hTot : ∀ (ll : Option String) (line : String) (t : ℤ),
      stepOf kb criterio ll line t = some (stepVal kb criterio ll line t))
    (hInvO : InvO kb start goal criterio closed closed st)
    (gu : ℤ) (pri : ℚ)
    (hmin : ∀ e ∈ st.openpq, pri ≤ e.1)
    (hgu : (gu : ℚ) ≤ pri) :
    ∀ (E : List (String × String × ℤ)) (s : SState) (gs acc : ℤ),
      lookupA st.g_cost s = some gs → gs ≤ acc →
      walkOK kb s E = true → (walkEnd s E).1 = goal →
      gu ≤ acc + walkCost kb criterio s E := by
  intro E
  induction E with
  | nil =>
    intro s gs acc hgs hacc hok hend
    rcases hInvO.pqWitness (s, gs) (lookupA_mem hgs) with hcl | hq
    · exact absurd hend (hInvO.closedNotGoal s hcl)
    · have h1 : pri ≤ ((gs : ℤ) : ℚ) := hmin _ hq
      have h3 : gu ≤ gs := by exact_mod_cast le_trans hgu h1
      simp only [walkCost]
      omega
  | cons e rest ih =>
    intro s gs acc hgs hacc hok hend
    simp only [walkOK, Bool.and_eq_true, decide_eq_true_eq] at hok
    obtain ⟨he, hrest⟩ := hok
    simp only [walkEnd] at hend
    have hstep : 0 ≤ stepVal kb criterio s.2 e.2.1 e.2.2 := stepVal_nonneg hSB he
    by_cases hcl : s ∈ closed
    · rcases hInvO.closedRel s hcl gs hgs e he _ (hTot s.2 e.2.1 e.2.2) with
        ⟨gw, hgw, hle⟩ | hq
      · have hrec := ih (e.1, some e.2.1) gw
          (acc + stepVal kb criterio s.2 e.2.1 e.2.2) hgw (by omega) hrest hend
        simp only [walkCost]
        omega
      · have h1 : pri ≤ ((gs : ℤ) : ℚ) := hmin _ hq
        have h3 : gu ≤ gs := by exact_mod_cast le_trans hgu h1
        have hwc := walkCost_nonneg hSB rest (e.1, some e.2.1) hrest
        simp only [walkCost]
        omega
    · rcases hInvO.pqWitness (s, gs) (lookupA_mem hgs) with hcl2 | hq
      · exact absurd hcl2 hcl
      · have h1 : pri ≤ ((gs : ℤ) : ℚ) := hmin _ hq
        have h3 : gu ≤ gs := by exact_mod_cast le_trans hgu h1
        have hwc := walkCost_nonneg hSB rest (e.1, some e.2.1) hrest
        simp only [walkCost]
        omega

theorem emptyPq_unreach (kb : KnowledgeBase) (start goal criterio : String)
    (closed : List SState) (st : AState)
    (hTot : ∀ (ll : Option String) (line : String) (t : ℤ),
      stepOf kb criterio ll line t = some (stepVal kb criterio ll line t))
    (hInvO : InvO kb start goal criterio closed closed st)
    (hpq : st.openpq = []) :
    ∀ (E : List (String × String × ℤ)) (s : SState) (gs : ℤ),
      lookupA st.g_cost s = some gs → walkOK kb s E = true →
      (walkEnd s E).1 ≠ goal := by
  intro E
  induction E with
  | nil =>
    intro s gs hgs _
    rcases hInvO.pqWitness (s, gs) (lookupA_mem hgs) with hcl | hq
    · exact hInvO.closedNotGoal s hcl
    · rw [hpq] at hq
      cases hq
  | cons e rest ih =>
    intro s gs hgs hok
    simp only [walkOK, Bool.and_eq_true, decide_eq_true_eq] at hok
    obtain ⟨he, hrest⟩ := hok
    have hcl : s ∈ closed := by
      rcases hInvO.pqWitness (s, gs) (lookupA_mem hgs) with hcl | hq
      · exact hcl
      · rw [hpq] at hq
        cases hq
    rcases hInvO.closedRel s hcl gs hgs e he _ (hTot s.2 e.2.1 e.2.2) with
      ⟨gw, hgw, -⟩ | hq
    · exact ih (e.1, some e.2.1) gw hgw hrest
    · rw [hpq] at hq
      cases hq

theorem initState_invO (kb : KnowledgeBase) (start goal criterio : String) :
    InvO kb start goal criterio [] [] (initState start) := by
  refine ⟨?_, ?_, ?_, ?_⟩
  · intro pe hpe gv hgv
    simp only [initState, List.mem_singleton] at hpe
    subst hpe
    simp only [initState, lookupA, eq_self_iff_true, if_true, Option.some.injEq] at hgv
    subst hgv
    norm_num
  · intro p hp
    simp only [initState, List.mem_singleton] at hp
    subst hp
    refine Or.inr ?_
    simp [initState]
  · intro s hs
    cases hs
  · intro s hs
    cases hs

theorem astarLoop_opt (hav : ℚ × ℚ → ℚ × ℚ → ℚ) (kb : KnowledgeBase)
    (goal criterio start : String)
    (hGFL : GraphFromLinks kb) (hSB : StepBounds kb criterio)
    (hcr : criterio = "saltos" ∨ criterio = "transbordos") :
    ∀ (fuel : ℕ) (st : AState) (closed : List SState),
      InvT kb start criterio st →
      InvO kb start goal criterio closed closed st →
      ((astarLoop hav kb goal criterio fuel st = some (.ok none) →
        ∀ E, walkOK kb (start, none) E = true →
          (walkEnd (start, none) E).1 ≠ goal) ∧
       (∀ P c, astarLoop hav kb goal criterio fuel st = some (.ok (some (P, c))) →
        ∀ E, walkOK kb (start, none) E = true →
          (walkEnd (start, none) E).1 = goal →
          c ≤ walkCost kb criterio (start, none) E)) := by
  have hTot := stepOf_total kb criterio hcr
  intro fuel
  induction fuel with
  | zero =>
    intro st closed hInvT hInvO
    constructor
    · intro h
      simp [astarLoop] at h
    · intro P c h
      simp [astarLoop] at h
  | succ f ihf =>
    intro st closed hInvT hInvO
    obtain ⟨pq, g, par⟩ := st
    have hunf := astarLoop_pos hav kb goal criterio (f + 1) ⟨pq, g, par⟩ (Nat.succ_pos f)
    cases hpop : popMin pq with
    | none =>
      rw [hpop] at hunf
      have hpqe : pq = [] := (popMin_eq_none_iff pq).mp hpop
      constructor
      · intro _ E hok hend
        exact emptyPq_unreach kb start goal criterio closed ⟨pq, g, par⟩ hTot hInvO
          hpqe E (start, none) 0 hInvT.gStart hok hend
      · intro P c h
        rw [hunf] at h
        simp at h
    | some pr2 =>
      obtain ⟨⟨pri, u⟩, pq2⟩ := pr2
      rw [hpop] at hunf
      dsimp only at hunf
      have hperm := popMin_perm hpop
      have hm : ((pri, u) : ℚ × SState) ∈ pq :=
        hperm.mem_iff.mpr (List.mem_cons_self _ _)
      obtain ⟨gu, hgu⟩ := Option.isSome_iff_exists.mp (hInvT.pqG (pri, u) hm)
      have hmin2 : ∀ e2 ∈ pq, pri ≤ e2.1 := popMin_min hpop
      have hguP : (gu : ℚ) ≤ pri := hInvO.pqLe (pri, u) hm gu hgu
      by_cases hgoal : u.1 = goal
      · -- the goal is popped: apply the cut argument to every competing walk
        rw [if_pos hgoal] at hunf
        rw [hgu] at hunf
        dsimp only at hunf
        have hmemg : (u, gu) ∈ g := lookupA_mem hgu
        obtain ⟨L, hgc⟩ := hInvT.chain (u, gu) hmemg
        have hpc := gc_parChain hgc (par.length + 1)
          (le_trans (gc_length_le hgc) (Nat.le_succ _))
        rw [hpc] at hunf
        constructor
        · intro h
          rw [hunf] at h
          simp at h
        · intro P c h E hok hend
          rw [hunf] at h
          simp only [Option.some.injEq, Except.ok.injEq, Prod.mk.injEq] at h
          obtain ⟨-, hcgu⟩ := h
          subst hcgu
          have hcut := cut_aux kb start goal criterio closed ⟨pq, g, par⟩ hSB hTot
            hInvO gu pri hmin2 hguP E (start, none) 0 0 hInvT.gStart
            (le_refl 0) hok hend
          omega
      · -- a non-goal state is popped: relax its edges and close it
        rw [if_neg hgoal] at hunf
        have hInvT2 : InvT kb start criterio ⟨pq2, g, par⟩ :=
          ⟨hInvT.keysEq, hInvT.keysNd, hInvT.keysSub,
           fun pe hpe =>
             hInvT.pqG pe (hperm.mem_iff.mpr (List.mem_cons_of_mem _ hpe)),
           hInvT.gNonneg, hInvT.gBound, hInvT.gStart, hInvT.parNone, hInvT.chain⟩
        have hInvO2 : InvO kb start goal criterio (u :: closed)
            (closed.filter (fun z => decide (z ≠ u))) ⟨pq2, g, par⟩ := by
          refine ⟨?_, ?_, ?_, ?_⟩
          · intro pe hpe gv hgv
            exact hInvO.pqLe pe (hperm.mem_iff.mpr (List.mem_cons_of_mem _ hpe)) gv hgv
          · intro p hp
            by_cases hpu : p.1 = u
            · exact Or.inl (by rw [hpu]; exact List.mem_cons_self _ _)
            · rcases hInvO.pqWitness p hp with hcl | hq
              · exact Or.inl (List.mem_cons_of_mem _ hcl)
              · refine Or.inr ?_
                rcases List.mem_cons.mp (hperm.mem_iff.mp hq) with heq | hq2
                · exact absurd (congrArg Prod.snd heq) hpu
                · exact hq2
          · intro s hs gv hgv e he step hstep
            have hs2 := List.mem_filter.mp hs
            have hsu : s ≠ u := by
              have := hs2.2
              simpa using this
            rcases hInvO.closedRel s hs2.1 gv hgv e he step hstep with hb | hq
            · exact Or.inl hb
            · refine Or.inr ?_
              rcases List.mem_cons.mp (hperm.mem_iff.mp hq) with heq | hq2
              · exact absurd (congrArg Prod.snd heq) hsu
              · exact hq2
          · intro s hs
            rcases List.mem_cons.mp hs with rfl | hs2
            · exact hgoal
            · exact hInvO.closedNotGoal s hs2
        obtain ⟨herr, hok2⟩ := relaxList_spec hav kb goal criterio start hGFL hSB
          u gu (u :: closed) (closed.filter (fun z => decide (z ≠ u)))
          (kb.neighbors u.1) ⟨pq2, g, par⟩ (fun e he => he) hgu hInvT2
        cases hrel : relaxList hav kb goal criterio u (kb.neighbors u.1)
            ⟨pq2, g, par⟩ with
        | error e =>
          rw [hrel] at hunf
          constructor
          · intro h
            rw [hunf] at h
            simp at h
          · intro P c h
            rw [hunf] at h
            simp at h
        | ok st2 =>
          rw [hrel] at hunf
          obtain ⟨hInvT3, hgu3, -, -, -, -, hpost, hOpres⟩ := hok2 st2 hrel
          have hO2 := hOpres hcr hInvO2
          have hInvOfin : InvO kb start goal criterio (u :: closed) (u :: closed) st2 := by
            refine ⟨hO2.pqLe, hO2.pqWitness, ?_, hO2.closedNotGoal⟩
            intro s hs gv hgv e he step hstep
            by_cases hsu : s = u
            · subst hsu
              rw [hgu3] at hgv
              injection hgv with hgv2
              subst hgv2
              exact Or.inl (hpost e he step hstep)
            · have hs2 : s ∈ closed := by
                rcases List.mem_cons.mp hs with h | h
                · exact absurd h hsu
                · exact h
              exact hO2.closedRel s (List.mem_filter.mpr ⟨hs2, by simpa using hsu⟩)
                gv hgv e he step hstep
          obtain ⟨ih1, ih2⟩ := ihf st2 (u :: closed) hInvT3 hInvOfin
          have hunf2 : astarLoop hav kb goal criterio (f + 1) ⟨pq, g, par⟩ =
              astarLoop hav kb goal criterio f st2 := by
            rw [hunf]
            simp
          constructor
          · intro h E hok hend
            rw [hunf2] at h
            exact ih1 h E hok hend
          · intro P c h E hok hend
            rw [hunf2] at h
            exact ih2 P c h E hok hend

theorem stepBounds_hops (kb : KnowledgeBase) (criterio : String)
    (hcr : criterio = "saltos" ∨ criterio = "transbordos") :
    StepBounds kb criterio := by
  intro u ll e he c hc
  have hms : 2 ≤ maxStepN kb := by
    unfold maxStepN
    omega
  have hms2 : (2 : ℤ) ≤ (maxStepN kb : ℤ) := by exact_mod_cast hms
  unfold stepOf at hc
  dsimp only at hc
  rcases hcr with h | h <;> subst h
  · rw [if_neg (by decide), if_pos rfl] at hc
    injection hc with hc2
    split_ifs at hc2 <;> omega
  · rw [if_neg (by decide), if_neg (by decide), if_pos rfl] at hc
    injection hc with hc2
    split_ifs at hc2 <;> omega

theorem sufficientFuel_pos (kb : KnowledgeBase) (start : String) :
    0 < sufficientFuel kb start := by
  simp only [sufficientFuel]
  omega

theorem sufficientFuel_one_lt (kb : KnowledgeBase) (start : String) :
    1 < sufficientFuel kb start := by
  simp only [sufficientFuel]
  omega

theorem chainOf_length (s : SState) (E : List (String × String × ℤ)) :
    (chainOf s E).length = E.length + 1 := by
  induction E generalizing s with
  | nil => rfl
  | cons e rest ih => simp [chainOf, ih]

theorem lookupA_getD_append_default {β : Type} (L : List (String × List β)) (s s2 : String) :
    (lookupA (L ++ [(s, [])]) s2).getD [] = (lookupA L s2).getD [] := by
  induction L with
  | nil => simp only [List.nil_append, lookupA]; split <;> simp
  | cons h tail ih =>
    obtain ⟨k, v⟩ := h
    simp only [List.cons_append, lookupA]
    split <;> simp [ih]

/-! ## Claim theorems: cost policy, reconstruction, concrete runs -/

/-- C2: during search, a step is a transfer iff a previous line exists and
differs from the next link's line, and the per-criterion scalar step cost is
`base + penalty·transfer` for `tiempo`, `1 + transfer` for `saltos`, and
`transfer` for `transbordos`. -/
theorem C2_cost_policy (kb : KnowledgeBase) (prev : Option String) (line : String) (t : ℤ) :
    (kb.is_transfer prev line = true ↔ prev ≠ none ∧ prev ≠ some line) ∧
    stepOf kb "tiempo" prev line t =
      some (t + (if kb.is_transfer prev line then kb.data.transfer_penalty else 0)) ∧
    stepOf kb "saltos" prev line t =
      some (1 + (if kb.is_transfer prev line then 1 else 0)) ∧
    stepOf kb "transbordos" prev line t =
      some (if kb.is_transfer prev line then 1 else 0) := by
  refine ⟨?_, ?_, ?_, ?_⟩
  · cases prev with
    | none => simp [KnowledgeBase.is_transfer]
    | some p =>
      simp only [KnowledgeBase.is_transfer, decide_eq_true_eq]
      constructor
      · intro h
        exact ⟨fun hc => Option.noConfusion hc, fun hc => h (Option.some.inj hc).symm⟩
      · rintro ⟨h1, h2⟩ hc
        exact h2 (by rw [hc])
  · simp [stepOf, KnowledgeBase.step_cost]
  · simp [stepOf]
  · simp [stepOf]

/-- C3 (divergence witness): on the single-line two-segment chain
A -(1)-> B -(1)-> C with times 5 and 4 and penalty 3, `explain_route`
reports total 12, 1 transfer, 2 hops — the transfer test of the source
compares the arrival-line components of states i and i-1 (checking only
state i for `is not None`), so the i = 1 segment is always flagged, while
rule R2 and the spec require 0 transfers and total 9 here. -/
theorem C3_phantom_transfer :
    explain_route (kbOfData c3data) [("A", none), ("B", some "1"), ("C", some "1")]
      = ("A ──(1)→ B\nB → C", 12, 1, 2) := by
  with_unfolding_all rfl

/-- C4: on the spec's example network (A-B line 1 time 5, B-C line 2 time 4,
penalty 3, heuristic exactly 0 since all stations share coordinates), the
`tiempo` search from A to C returns the chain A, B, C with cost 12, and
reconstruction reports total 12, 1 transfer, 2 hops. -/
theorem C4_transfer_accounting :
    a_star havZero (kbOfData c4data) "A" "C" "tiempo"
      = some (.ok (some ([("A", none), ("B", some "1"), ("C", some "2")], 12))) ∧
    (explain_route (kbOfData c4data) [("A", none), ("B", some "1"), ("C", some "2")]).2
      = (12, 1, 2) :=
  ⟨by with_unfolding_all rfl, by with_unfolding_all rfl⟩

/-- C5 (counterexample): constructing the knowledge base from a dataset
whose only link has base time -5 and references station B, which has no
coordinates entry, succeeds and returns a fully built table — no
`InvalidData` failure exists in the constructor. -/
theorem C5_counterexample :
    kbOfData badData =
      { data := badData,
        graph := [("A", [("B", "1", -5)]), ("B", [("A", "1", -5)])],
        lines_by_station := [("A", ["1"]), ("B", ["1"])] } := by
  with_unfolding_all rfl

/-- C5 (amended): construction performs no validation and succeeds on every
dataset; the only coordinate-related failure is deferred to `coords`, which
fails exactly on stations absent from the stations table. -/
theorem C5_no_validation (d : RPData) :
    kbOfData d =
      { data := d, graph := buildGraph d.links, lines_by_station := buildLines d.links } ∧
    ∀ s, (∃ c, (kbOfData d).coords s = .ok c) ↔ (lookupA d.stations s).isSome = true := by
  refine ⟨rfl, fun s => ?_⟩
  simp only [kbOfData, KnowledgeBase.coords]
  cases lookupA d.stations s <;> simp

/-- C6 (counterexample): searching from the stop X, absent from the network
of the concrete example, to C under `tiempo` returns the ordinary
"no path" result, not an unknown-stop error. -/
theorem C6_counterexample :
    a_star havZero (kbOfData c4data) "X" "C" "tiempo" = some (.ok none) := by
  with_unfolding_all rfl

/-- C8 (counterexample): querying `neighbors` on the unknown stop X extends
the adjacency table of the knowledge base (the defaultdict inserts the key),
so the query does not leave the mapping unchanged. -/
theorem C8_counterexample :
    ((kbOfData c4data).neighborsD "X").2.graph ≠ (kbOfData c4data).graph := by
  decide

theorem neighborsD_pair (kb : KnowledgeBase) (s : String) :
    kb.neighborsD s = (kb.neighbors s,
      { kb with graph :=
          if (lookupA kb.graph s).isSome then kb.graph else kb.graph ++ [(s, [])] }) := by
  unfold KnowledgeBase.neighborsD
  cases h : lookupA kb.graph s
  · simp [h, KnowledgeBase.neighbors]
  · simp [h, KnowledgeBase.neighbors]

theorem is_interchangeD_pair (kb : KnowledgeBase) (s : String) :
    kb.is_interchangeD s = (kb.is_interchange s,
      { kb with lines_by_station :=
          if (lookupA kb.lines_by_station s).isSome then kb.lines_by_station
          else kb.lines_by_station ++ [(s, [])] }) := by
  unfold KnowledgeBase.is_interchangeD
  cases h : lookupA kb.lines_by_station s
  · simp [h, KnowledgeBase.is_interchange]
  · simp [h, KnowledgeBase.is_interchange]

/-- C8 (amended): queries return the same values as the pure lookups and
never change any lookup result or the dataset; a query on a stop that is a
known key leaves the table identical, while a query on an unknown stop only
appends a default empty entry for it (the defaultdict side effect), which
is invisible to every subsequent `neighbors` / `is_interchange` query. -/
theorem C8_queries_preserve_lookups (kb : KnowledgeBase) (s : String) :
    (kb.neighborsD s).1 = kb.neighbors s ∧
    (kb.neighborsD s).2.data = kb.data ∧
    (kb.neighborsD s).2.lines_by_station = kb.lines_by_station ∧
    (kb.neighborsD s).2.graph =
      (if (lookupA kb.graph s).isSome then kb.graph else kb.graph ++ [(s, [])]) ∧
    (∀ s2, (kb.neighborsD s).2.neighbors s2 = kb.neighbors s2) ∧
    (kb.is_interchangeD s).1 = kb.is_interchange s ∧
    (kb.is_interchangeD s).2.data = kb.data ∧
    (kb.is_interchangeD s).2.graph = kb.graph ∧
    (kb.is_interchangeD s).2.lines_by_station =
      (if (lookupA kb.lines_by_station s).isSome then kb.lines_by_station
       else kb.lines_by_station ++ [(s, [])]) ∧
    (∀ s2, (kb.is_interchangeD s).2.is_interchange s2 = kb.is_interchange s2) := by
  refine ⟨?_, ?_, ?_, ?_, fun s2 => ?_, ?_, ?_, ?_, ?_, fun s2 => ?_⟩ <;>
    simp only [neighborsD_pair, is_interchangeD_pair] <;>
    first
      | rfl
      | (simp only [KnowledgeBase.neighbors, KnowledgeBase.is_interchange]
         split <;> simp [lookupA_getD_append_default])

/-- C9: for every knowledge base, criterion string and stop s, searching
from s to s returns the one-state path [(s, none)] with cost 0, and
reconstructing that path yields total time 0, 0 transfers and 0 hops. -/
theorem C9_reflexive (hav : ℚ × ℚ → ℚ × ℚ → ℚ) (kb : KnowledgeBase)
    (s criterio : String) :
    a_star hav kb s s criterio = some (.ok (some ([(s, none)], 0))) ∧
    (explain_route kb [(s, none)]).2 = (0, 0, 0) := by
  constructor
  · rw [a_star, astarLoop_pos _ _ _ _ _ _ (sufficientFuel_pos kb s)]
    simp [initState, popMin, lookupA, parChain]
  · simp [explain_route, erLoop, erSteps]

/-- C6 (amended): no UnknownStop-style error exists in the search.  A start
stop with no adjacency entry (and distinct from the goal) produces the
ordinary "no path" result under every criterion; a goal stop without a
coordinates entry under `tiempo` makes the first improving relaxation raise
the `KeyError` of the coordinates lookup (a crash), provided the start has
at least one neighbor whose own coordinates are present. -/
theorem C6_unknown_stop_behavior (hav : ℚ × ℚ → ℚ × ℚ → ℚ) (kb : KnowledgeBase)
    (start goal criterio v line : String) (t : ℤ)
    (rest : List (String × String × ℤ)) :
    (lookupA kb.graph start = none → start ≠ goal →
      a_star hav kb start goal criterio = some (.ok none)) ∧
    (kb.neighbors start = (v, line, t) :: rest →
      (lookupA kb.data.stations v).isSome = true →
      lookupA kb.data.stations goal = none →
      start ≠ goal →
      a_star hav kb start goal "tiempo" = some (.error (.keyError goal))) := by
  constructor
  · intro hg hne
    rw [a_star, astarLoop_pos _ _ _ _ _ _ (sufficientFuel_pos kb start)]
    simp only [initState, popMin]
    rw [if_neg (by simpa using hne)]
    rw [show kb.neighbors start = [] by simp [KnowledgeBase.neighbors, hg]]
    simp only [relaxList]
    rw [astarLoop_pos _ _ _ _ _ _ (by have := sufficientFuel_one_lt kb start; omega)]
    simp [popMin]
  · intro hn hv hgoal hne
    obtain ⟨cv, hcv⟩ := Option.isSome_iff_exists.mp hv
    rw [a_star, astarLoop_pos _ _ _ _ _ _ (sufficientFuel_pos kb start)]
    simp only [initState, popMin]
    rw [if_neg (by simpa using hne)]
    rw [hn]
    simp [relaxList, relaxOne, stepOf, lookupA, hfun, KnowledgeBase.coords, hcv, hgoal,
      Except.bind]
    rfl

theorem C6_unknown_stop_behavior_witness :
    a_star havZero (kbOfData c4data) "W" "C" "saltos" = some (.ok none) ∧
    a_star havZero (kbOfData c4data) "A" "Q" "tiempo" = some (.error (.keyError "Q")) :=
  ⟨(C6_unknown_stop_behavior havZero (kbOfData c4data) "W" "C" "saltos" "B" "1" 5 []).1
      (by decide) (by decide),
   (C6_unknown_stop_behavior havZero (kbOfData c4data) "A" "Q" "tiempo" "B" "1" 5 []).2
      (by decide) (by decide) (by decide) (by decide)⟩

/-- C1 (counterexample): on `cexData` with the source heuristic (which is 0
at the goal's coordinates and about 20016 at Y, in particular larger than
9), the `tiempo` search from X to Z returns the direct chain X, Z with
cumulative cost 10 — every valid walk with that state chain costs 10 —
although the valid walk X-Y-Z (cost 1 + 1 = 2) is strictly cheaper, so the
returned path is not optimal. -/
theorem C1_counterexample :
    a_star cexHav (kbOfData cexData) "X" "Z" "tiempo"
      = some (.ok (some ([("X", none), ("Z", some "a")], 10))) ∧
    walkOK (kbOfData cexData) ("X", none) [("Y", "a", 1), ("Z", "a", 1)] = true ∧
    (walkEnd ("X", none) [("Y", "a", 1), ("Z", "a", 1)]).1 = "Z" ∧
    walkCost (kbOfData cexData) "tiempo" ("X", none) [("Y", "a", 1), ("Z", "a", 1)] = 2 ∧
    (∀ E, walkOK (kbOfData cexData) ("X", none) E = true →
        chainOf ("X", none) E = [("X", none), ("Z", some "a")] →
        walkCost (kbOfData cexData) "tiempo" ("X", none) E = 10) := by
  refine ⟨by with_unfolding_all rfl, by with_unfolding_all rfl, rfl,
    by with_unfolding_all rfl, ?_⟩
  intro E hOK hchain
  have hlen := congrArg List.length hchain
  rw [chainOf_length] at hlen
  simp only [List.length_cons, List.length_nil] at hlen
  have hE : E.length = 1 := by omega
  obtain ⟨e, rfl⟩ := List.length_eq_one.mp hE
  obtain ⟨v, l, t⟩ := e
  simp only [chainOf, List.cons.injEq, Prod.mk.injEq, Option.some.injEq, and_true] at hchain
  obtain ⟨-, hv, hl⟩ := hchain
  subst hv; subst hl
  have hnb : (kbOfData cexData).neighbors "X" = [("Z", "a", 10), ("Y", "a", 1)] := by decide
  simp only [walkOK, hnb, List.mem_cons, List.not_mem_nil, or_false, Prod.mk.injEq,
    Bool.and_eq_true, decide_eq_true_eq] at hOK
  have ht : t = 10 := by
    rcases hOK.1 with h | h
    · exact h.2.2
    · exact absurd h.1 (by decide)
  subst ht
  decide

/-- C10: for every dataset with non-negative integer link times and a
non-negative transfer penalty, and for every criterion — including
`transbordos`, where step costs can be 0 — the search loop terminates:
`a_star` runs within its provably sufficient fuel and yields a result.
The proof is by the decreasing measure frontier size + total cost
potential, which drops at every pop and at every strict cost improvement. -/
theorem C10_terminates (hav : ℚ × ℚ → ℚ × ℚ → ℚ) (d : RPData)
    (start goal criterio : String)
    (htimes : ∀ l ∈ d.links, 0 ≤ l.2.2.2) (hpen : 0 ≤ d.transfer_penalty) :
    ∃ r, a_star hav (kbOfData d) start goal criterio = some r := by
  obtain ⟨r, hr, -⟩ := astarLoop_total hav (kbOfData d) goal criterio start
    (kbOfData_graphFromLinks d)
    (stepBounds_of_nonneg (kbOfData d) criterio (kbOfData_graphFromLinks d) htimes hpen)
    (sufficientFuel (kbOfData d) start) (initState start)
    (initState_invT (kbOfData d) start criterio)
    (muA_init_lt (kbOfData d) start)
  exact ⟨r, hr⟩

theorem C10_terminates_witness :
    ∃ r, a_star havZero (kbOfData c4data) "A" "C" "transbordos" = some r :=
  C10_terminates havZero c4data "A" "C" "transbordos" (by decide) (by decide)

/-- C7: for every dataset with non-negative link times and penalty, every
supported criterion, and (under `tiempo`) coordinates present for the goal
and for every link endpoint, if no valid walk from the start reaches the
goal station then `a_star` returns the distinguished no-path value — the
embedding's `.ok none`, the source's `(None, float('inf'))` — as a normal
return, not an exception. -/
theorem C7_unreachable (hav : ℚ × ℚ → ℚ × ℚ → ℚ) (d : RPData)
    (start goal criterio : String)
    (htimes : ∀ l ∈ d.links, 0 ≤ l.2.2.2) (hpen : 0 ≤ d.transfer_penalty)
    (hcr : criterio = "tiempo" ∨ criterio = "saltos" ∨ criterio = "transbordos")
    (hcoords : criterio = "tiempo" →
      (lookupA d.stations goal).isSome = true ∧
      ∀ l ∈ d.links, (lookupA d.stations l.1).isSome = true ∧
        (lookupA d.stations l.2.1).isSome = true)
    (hunreach : ∀ E, walkOK (kbOfData d) (start, none) E = true →
      (walkEnd (start, none) E).1 ≠ goal) :
    a_star hav (kbOfData d) start goal criterio = some (.ok none) := by
  have hGFL := kbOfData_graphFromLinks d
  obtain ⟨r, hr, hshape⟩ := astarLoop_total hav (kbOfData d) goal criterio start
    hGFL (stepBounds_of_nonneg (kbOfData d) criterio hGFL htimes hpen)
    (sufficientFuel (kbOfData d) start) (initState start)
    (initState_invT (kbOfData d) start criterio)
    (muA_init_lt (kbOfData d) start)
  rcases hshape with hsh | ⟨P, c, hsh, -, E, hE1, hE2, -, -⟩ | ⟨e, hsh, hec⟩
  · rw [hsh] at hr
    exact hr
  · exact absurd hE2 (hunreach E hE1)
  · exfalso
    cases e with
    | keyErrorState s => exact hec
    | valueError =>
      obtain ⟨h1, h2, h3⟩ := hec
      rcases hcr with h | h | h
      · exact h1 h
      · exact h2 h
      · exact h3 h
    | keyError s2 =>
      obtain ⟨hti, hnone, hor⟩ := hec
      obtain ⟨hgoalc, hlinkc⟩ := hcoords hti
      have hnone2 : lookupA d.stations s2 = none := hnone
      rcases hor with rfl | ⟨u, e2, he2, he2s⟩
      · rw [hnone2] at hgoalc
        cases hgoalc
      · obtain ⟨l, hl, -, -, h3⟩ := hGFL u e2 he2
        obtain ⟨hc1, hc2⟩ := hlinkc l hl
        rcases h3 with h3 | h3
        · rw [← h3, he2s, hnone2] at hc1
          cases hc1
        · rw [← h3, he2s, hnone2] at hc2
          cases hc2

theorem C7_unreachable_witness :
    a_star havZero (kbOfData c4data) "A" "Q" "saltos" = some (.ok none) := by
  apply C7_unreachable havZero c4data "A" "Q" "saltos" (by decide) (by decide)
    (Or.inr (Or.inl rfl)) (fun h => absurd h (by decide))
  intro E hE
  rcases walk_end_target (kbOfData c4data) E ("A", none) hE with h | ⟨u, e, he, heq⟩
  · rw [h]
    decide
  · obtain ⟨l, hl, -, -, h3⟩ := kbOfData_graphFromLinks c4data u e he
    rw [heq]
    have hl2 : l ∈ [("A", "B", "1", (5 : ℤ)), ("B", "C", "2", 4)] := hl
    fin_cases hl2
    · rcases h3 with h3 | h3 <;> rw [h3] <;> decide
    · rcases h3 with h3 | h3 <;> rw [h3] <;> decide

/-- C1 (amended): for the zero-heuristic criteria `saltos` and
`transbordos` the claim holds on every network: whenever some valid walk
from the start reaches the goal station, `a_star` returns a path — the
state chain of an actual valid walk to the goal whose cost equals the
returned cumulative cost — and that cost is ≤ the cost of every valid walk
from start to goal.  (Under `tiempo`, optimality can fail because the
embedded heuristic `haversine * 2` can overestimate, see the
counterexample.) -/
theorem C1_amended (hav : ℚ × ℚ → ℚ × ℚ → ℚ) (d : RPData)
    (start goal criterio : String)
    (hcr : criterio = "saltos" ∨ criterio = "transbordos")
    (hreach : ∃ E, walkOK (kbOfData d) (start, none) E = true ∧
      (walkEnd (start, none) E).1 = goal) :
    ∃ P c, a_star hav (kbOfData d) start goal criterio = some (.ok (some (P, c))) ∧
      (∃ E, walkOK (kbOfData d) (start, none) E = true ∧
        (walkEnd (start, none) E).1 = goal ∧
        P = chainOf (start, none) E ∧
        walkCost (kbOfData d) criterio (start, none) E = c) ∧
      (∀ E, walkOK (kbOfData d) (start, none) E = true →
        (walkEnd (start, none) E).1 = goal →
        c ≤ walkCost (kbOfData d) criterio (start, none) E) := by
  have hGFL := kbOfData_graphFromLinks d
  have hSB := stepBounds_hops (kbOfData d) criterio hcr
  obtain ⟨r, hr, hshape⟩ := astarLoop_total hav (kbOfData d) goal criterio start
    hGFL hSB (sufficientFuel (kbOfData d) start) (initState start)
    (initState_invT (kbOfData d) start criterio) (muA_init_lt (kbOfData d) start)
  obtain ⟨hnone, hopt⟩ := astarLoop_opt hav (kbOfData d) goal criterio start hGFL
    hSB hcr (sufficientFuel (kbOfData d) start) (initState start) []
    (initState_invT (kbOfData d) start criterio)
    (initState_invO (kbOfData d) start goal criterio)
  obtain ⟨E0, hE0ok, hE0end⟩ := hreach
  rcases hshape with hsh | ⟨P, c, hsh, -, E, hE1, hE2, hE3, hE4⟩ | ⟨e, hsh, hec⟩
  · subst hsh
    exact absurd hE0end (hnone hr E0 hE0ok)
  · subst hsh
    refine ⟨P, c, hr, ⟨E, hE1, hE2, hE3, ?_⟩, fun E2 h1 h2 => hopt P c hr E2 h1 h2⟩
    have h5 := hopt P c hr E hE1 hE2
    omega
  · exfalso
    subst hsh
    cases e with
    | keyErrorState s => exact hec
    | valueError =>
      obtain ⟨-, h2, h3⟩ := hec
      rcases hcr with h | h
      · exact h2 h
      · exact h3 h
    | keyError s2 =>
      obtain ⟨hti, -, -⟩ := hec
      rcases hcr with h | h <;> rw [h] at hti <;> exact absurd hti (by decide)

theorem C1_amended_witness :
    ∃ P c, a_star havZero (kbOfData c4data) "A" "C" "saltos" =
        some (.ok (some (P, c))) ∧
      (∃ E, walkOK (kbOfData c4data) ("A", none) E = true ∧
        (walkEnd ("A", none) E).1 = "C" ∧
        P = chainOf ("A", none) E ∧
        walkCost (kbOfData c4data) "saltos" ("A", none) E = c) ∧
      (∀ E, walkOK (kbOfData c4data) ("A", none) E = true →
        (walkEnd ("A", none) E).1 = "C" →
        c ≤ walkCost (kbOfData c4data) "saltos" ("A", none) E) :=
  C1_amended havZero c4data "A" "C" "saltos" (Or.inl rfl)
    ⟨[("B", "1", (5 : ℤ)), ("C", "2", (4 : ℤ))], by decide, by decide⟩
